import Mathlib

/-!
# s5cmd: command table, help renderer and error classifier

A shallow embedding of `core/error.go`, `core/command.go` and `opt/opt.go`.
Go strings are modelled by `String` (valid UTF-8 text), Go `int` status codes by `Int`.
-/

namespace S5cmd

/-! ## core/error.go -/

/-- Error values of Go, by the interfaces their dynamic type satisfies.
Each constructor stores the text its `Error()` method returns.
* `nil`: the nil interface value;
* `plain`: an unstructured error (`errors.New`), only `Error()`;
* `acceptable`: an `AcceptableErrorType`, a struct embedding an inner `error`;
  its method set is `Error()` (promoted) and `Acceptable()`;
* `awsErr`: satisfies `awserr.Error` (has `Code()`), not `awserr.RequestFailure`;
* `requestFailure`: satisfies `awserr.RequestFailure`, hence `awserr.Error` too
  (has `Code()` and `StatusCode()`). -/
inductive GoError where
  | nil : GoError
  | plain (msg : String) : GoError
  | acceptable (inner : GoError) : GoError
  | awsErr (code : String) (msg : String) : GoError
  | requestFailure (code : String) (msg : String) (status : Int) : GoError
  deriving DecidableEq, Repr

/-- Result of `err.Error()`; `none` stands for the nil-dereference on a nil interface. -/
def GoError.Error : GoError → Option String
  | .nil => none
  | .plain msg => some msg
  | .acceptable inner => inner.Error
  | .awsErr _ msg => some msg
  | .requestFailure _ msg _ => some msg

/-- Type assertion `err.(awserr.Error)`: the value of `Code()` when it succeeds. -/
def GoError.asAwsError : GoError → Option String
  | .awsErr code _ => some code
  | .requestFailure code _ _ => some code
  | _ => none

/-- Type assertion `err.(awserr.RequestFailure)`: `Code()` and `StatusCode()` when it succeeds. -/
def GoError.asRequestFailure : GoError → Option (String × Int)
  | .requestFailure code _ status => some (code, status)
  | _ => none

/-- The verb `%d` of `fmt.Sprintf` on an `int`. -/
def sprintfD (n : Int) : String :=
  if n < 0 then "-" ++ Nat.repr n.natAbs else Nat.repr n.toNat

/-- `NewAcceptableError(s)` is `AcceptableErrorType{errors.New(s)}`. -/
def NewAcceptableError (s : String) : GoError :=
  .acceptable (.plain s)

/-- `IsRetryableError(err)`: the error code and whether the error is retryable. -/
def IsRetryableError (err : GoError) : String × Bool :=
  if err ≠ .nil then
    match err.asAwsError with
    | some code =>
      let errCode := code
      if errCode = "SlowDown" ∨ errCode = "SerializationError" then
        (errCode, true)
      else
        match err.asRequestFailure with
        | some (rcode, status) =>
          let errCode := rcode
          if errCode = "InternalError" ∨ errCode = "SerializationError" then
            (errCode, true)
          else if status = 400 ∨ status = 500 then
            ("HTTP" ++ sprintfD status, true)
          else
            ("", false)
        | none => ("", false)
    | none => ("", false)
  else
    ("", false)

/-- An `AcceptableError` interface value: the error seen through `Error()` and `Acceptable()`. -/
structure AcceptableError where
  err : GoError
  deriving DecidableEq, Repr

/-- `Acceptable()` of `AcceptableErrorType`: always true. -/
def AcceptableError.Acceptable (_e : AcceptableError) : Bool := true

/-- `Error()` of an `AcceptableError` value. -/
def AcceptableError.Error (e : AcceptableError) : Option String := e.err.Error

/-- `IsAcceptableError(err)`: the type assertion `err.(AcceptableError)`, `none` for Go nil. -/
def IsAcceptableError (err : GoError) : Option AcceptableError :=
  match err with
  | .acceptable inner => some ⟨.acceptable inner⟩
  | _ => none

/-! ### Library functions used by `CleanupError` and `GetCommandList` -/

/-- Scan of `strings.Replace(s, old, new, -1)` for a non-empty `old`: `skip` counts the
characters of a match that are still to be passed over. At each position outside a match, if
`old` is a prefix of the rest, `new` is emitted and the match is passed over; otherwise the
character is copied. -/
def replaceGo (old new : List Char) : Nat → List Char → List Char
  | _, [] => []
  | skip + 1, _ :: cs => replaceGo old new skip cs
  | 0, c :: cs =>
    if old.isPrefixOf (c :: cs) then new ++ replaceGo old new (old.length - 1) cs
    else c :: replaceGo old new 0 cs

/-- `strings.Replace(s, old, new, -1)`: every non-overlapping instance of `old`, found from the
left, is replaced by `new`. For an empty `old`, `new` is inserted before the text and after
each character. -/
def stringsReplaceAll (s old new : String) : String :=
  if old.data = [] then ⟨new.data ++ s.data.flatMap (fun c => c :: new.data)⟩
  else ⟨replaceGo old.data new.data 0 s.data⟩

/-- `unicode.IsSpace`: the characters with the Unicode White_Space property. -/
def unicodeIsSpace (c : Char) : Bool :=
  let n := c.toNat
  (9 ≤ n && n ≤ 13) || n = 0x20 || n = 0x85 || n = 0xA0 || n = 0x1680 ||
  (0x2000 ≤ n && n ≤ 0x200a) || n = 0x2028 || n = 0x2029 || n = 0x202f ||
  n = 0x205f || n = 0x3000

/-- `strings.TrimSpace(s)`: `s` without its leading and trailing white space. -/
def stringsTrimSpace (s : String) : String :=
  ⟨(s.data.dropWhile unicodeIsSpace).rdropWhile unicodeIsSpace⟩

/-- `CleanupError(err)`: the message of the error on a single line; `none` stands for the
nil-dereference of `err.Error()` on a nil error. -/
def CleanupError (err : GoError) : Option String :=
  match err.Error with
  | none => none
  | some msg =>
    let s := stringsReplaceAll msg "\n" " "
    let s := stringsReplaceAll s "\t" " "
    let s := stringsReplaceAll s "  " " "
    let s := stringsReplaceAll s "  " " "
    let s := stringsTrimSpace s
    some s

/-- Number of space characters at the front of a text. -/
def leadSpaces : List Char → Nat
  | [] => 0
  | c :: cs => if c = ' ' then leadSpaces cs + 1 else 0

/-- Length of the longest run of consecutive space characters in a text. -/
def maxSpaceRun : List Char → Nat
  | [] => 0
  | c :: cs => max (leadSpaces (c :: cs)) (maxSpaceRun cs)

/-! ## opt/opt.go -/

/-- `OptionType` is an `int`. -/
abbrev OptionType := Int

/-- `OptionList` is a slice of `OptionType`. -/
abbrev OptionList := List OptionType

def DeleteSource : OptionType := 1
def IfNotExists : OptionType := 2
def Parents : OptionType := 3
def RR : OptionType := 4
def IA : OptionType := 5
def Recursive : OptionType := 6
def ListETags : OptionType := 7
def HumanReadable : OptionType := 8

/-- The order of the options in the help text. -/
def optionsHelpOrder : List OptionType :=
  [IfNotExists, Parents, Recursive, RR, IA, ListETags, HumanReadable]

/-- `OptionList.Has`: whether the list contains the option. -/
def OptionList.Has (l : OptionList) (check : OptionType) : Bool :=
  match l with
  | [] => false
  | i :: rest => if i = check then true else OptionList.Has rest check

/-- `OptionType.GetParam`: the flag text of an option. -/
def OptionType.GetParam (o : OptionType) : String :=
  if o = IfNotExists then "-n"
  else if o = Parents then "--parents"
  else if o = RR then "-rr"
  else if o = IA then "-ia"
  else if o = Recursive then "-R"
  else if o = ListETags then "-e"
  else if o = HumanReadable then "-h"
  else ""

/-- `OptionType.HelpMessage`: the help text of an option. -/
def OptionType.HelpMessage (o : OptionType) : String :=
  if o = IfNotExists then "Do not overwrite existing files/objects (no-clobber)"
  else if o = Parents then
    "Create directory structure in destination, starting from the first wildcard"
  else if o = Recursive then "Recursive operation"
  else if o = RR then "Store with Reduced-Redundancy mode"
  else if o = IA then "Store with Infrequent-Access mode"
  else if o = ListETags then "Show ETags in listing"
  else if o = HumanReadable then "Human-readable output for file sizes"
  else ""

/-- The verb `%-10s` of `fmt.Sprintf`: the text, padded with spaces on the right to width 10. -/
def padRight10 (s : String) : String :=
  ⟨s.data ++ List.replicate (10 - s.data.length) ' '⟩

/-- `GetOptionList`: the options with their help messages, one per line. -/
def GetOptionList : String :=
  let out := optionsHelpOrder.map
    (fun o => "  " ++ padRight10 (OptionType.GetParam o) ++ " " ++ OptionType.HelpMessage o)
  "\n".intercalate out ++ "\n"

/-- `OptionList.GetParams`: the non-empty flags of the list, each preceded by a space. -/
def OptionList.GetParams (l : OptionList) : String :=
  let r := (l.map OptionType.GetParam).filter (fun p => p ≠ "")
  let j := " ".intercalate r
  if j ≠ "" then " " ++ j else ""

/-- `ParamType` is an `int`. -/
abbrev ParamType := Int

def Unchecked : ParamType := 0
def UncheckedOneOrMore : ParamType := 1
def S3Obj : ParamType := 2
def S3Dir : ParamType := 3
def S3ObjOrDir : ParamType := 4
def S3WildObj : ParamType := 5
def FileObj : ParamType := 6
def Dir : ParamType := 7
def FileOrDir : ParamType := 8
def Glob : ParamType := 9

/-- `ParamType.String`: the display text of a parameter shape. -/
def ParamType.String (p : ParamType) : String :=
  if p = Unchecked then "param"
  else if p = UncheckedOneOrMore then "param..."
  else if p = S3Obj then "s3://bucket[/object]"
  else if p = S3Dir then "s3://bucket[/object]/"
  else if p = S3ObjOrDir then "s3://bucket[/object[/]]"
  else if p = S3WildObj then "s3://bucket/wild/*/obj*"
  else if p = FileObj then "filename"
  else if p = Dir then "directory"
  else if p = FileOrDir then "file-or-directory"
  else if p = Glob then "glob-pattern*"
  else "unknown"

/-! ## core/command.go -/

/-- Modelled from the spec: the type `op.Operation` of package `op`, which is not among the
sources; an identifier for one action. The constructors are the operations that
`core/command.go` names. -/
inductive Operation where
  | Abort | LocalCopy | BatchLocalCopy | Copy | BatchCopy | Upload | BatchUpload
  | Download | BatchDownload | LocalDelete | Delete | BatchDelete | BatchDeleteActual
  | ListBuckets | List | Size | ShellExec
  deriving DecidableEq, Repr

/-- Modelled from the spec: the methods of `op.Operation` that `GetCommandList` calls, which
are not among the sources: the internal-vs-user-facing flag, the human description (given the
entry's default options) and the accepted option list. -/
structure OpMethods where
  IsInternal : Operation → Bool
  Describe : Operation → OptionList → String
  GetAcceptedOpts : Operation → OptionList

/-- An entry of the command table. -/
structure commandMap where
  keyword : String
  operation : Operation
  params : List ParamType
  opts : OptionList
  deriving DecidableEq, Repr

/-- The command table. -/
def commands : List commandMap := [
  ⟨"exit", .Abort, [], []⟩,
  ⟨"exit", .Abort, [Unchecked], []⟩,
  -- File to file
  ⟨"cp", .LocalCopy, [FileObj, FileOrDir], []⟩,
  ⟨"cp", .BatchLocalCopy, [Glob, Dir], []⟩,
  ⟨"cp", .BatchLocalCopy, [Dir, Dir], []⟩,
  -- S3 to S3
  ⟨"cp", .Copy, [S3Obj, S3ObjOrDir], []⟩,
  ⟨"cp", .BatchCopy, [S3WildObj, S3Dir], []⟩,
  -- File to S3
  ⟨"cp", .Upload, [FileObj, S3ObjOrDir], []⟩,
  ⟨"cp", .BatchUpload, [Glob, S3Dir], []⟩,
  ⟨"cp", .BatchUpload, [Dir, S3Dir], []⟩,
  -- S3 to file
  ⟨"cp", .Download, [S3Obj, FileOrDir], []⟩,
  ⟨"cp", .BatchDownload, [S3WildObj, Dir], []⟩,
  -- File to file
  ⟨"mv", .LocalCopy, [FileObj, FileOrDir], [DeleteSource]⟩,
  ⟨"mv", .BatchLocalCopy, [Glob, Dir], [DeleteSource]⟩,
  ⟨"mv", .BatchLocalCopy, [Dir, Dir], [DeleteSource]⟩,
  -- S3 to S3
  ⟨"mv", .Copy, [S3Obj, S3ObjOrDir], [DeleteSource]⟩,
  ⟨"mv", .BatchCopy, [S3WildObj, S3Dir], [DeleteSource]⟩,
  -- File to S3
  ⟨"mv", .Upload, [FileObj, S3ObjOrDir], [DeleteSource]⟩,
  ⟨"mv", .BatchUpload, [Glob, S3Dir], [DeleteSource]⟩,
  ⟨"mv", .BatchUpload, [Dir, S3Dir], [DeleteSource]⟩,
  -- S3 to file
  ⟨"mv", .Download, [S3Obj, FileOrDir], [DeleteSource]⟩,
  ⟨"mv", .BatchDownload, [S3WildObj, Dir], [DeleteSource]⟩,
  -- File
  ⟨"rm", .LocalDelete, [FileObj], []⟩,
  -- S3
  ⟨"rm", .Delete, [S3Obj], []⟩,
  ⟨"rm", .BatchDelete, [S3WildObj], []⟩,
  ⟨"batch-rm", .BatchDeleteActual, [S3Obj, UncheckedOneOrMore], []⟩,
  ⟨"ls", .ListBuckets, [], []⟩,
  ⟨"ls", .List, [S3ObjOrDir], []⟩,
  ⟨"ls", .List, [S3WildObj], []⟩,
  ⟨"du", .Size, [S3ObjOrDir], []⟩,
  ⟨"du", .Size, [S3WildObj], []⟩,
  ⟨"!", .ShellExec, [UncheckedOneOrMore], []⟩]

/-- The fixed usage texts of the two override commands (the map `overrides`). -/
def overrides (o : Operation) : Option String :=
  match o with
  | .Abort => some "exit [exit code]"
  | .ShellExec => some "! command [parameters...]"
  | _ => none

/-- A Go `map[string][]string`, as an association list with distinct keys. -/
abbrev HelpMap := List (String × List String)

/-- Assignment `m[k] = v`: replaces the value of an existing key, adds the key otherwise. -/
def HelpMap.set (m : HelpMap) (k : String) (v : List String) : HelpMap :=
  match m with
  | [] => [(k, v)]
  | (k', v') :: rest => if k' = k then (k, v) :: rest else (k', v') :: HelpMap.set rest k v

/-- Lookup `m[k]`: the value of the key, the nil slice when the key is absent. -/
def HelpMap.get (m : HelpMap) (k : String) : List String :=
  match m with
  | [] => []
  | (k', v') :: rest => if k' = k then v' else HelpMap.get rest k

/-- The usage line synthesized for a table entry: the keyword, ` [flag]` for each accepted
option, a space and the label for each required shape, then the textual collapse of
` [-rr] [-ia] `. -/
def usageLine (ops : OpMethods) (c : commandMap) : String :=
  let s := c.keyword
  let ao := ops.GetAcceptedOpts c.operation
  let s := ao.foldl (fun s p => s ++ " [" ++ OptionType.GetParam p ++ "]") s
  let s := c.params.foldl (fun s pt => s ++ " " ++ ParamType.String pt) s
  stringsReplaceAll s " [-rr] [-ia] " " [-rr|-ia] "

/-- The variables of the loop of `GetCommandList`. -/
structure HelpState where
  list : HelpMap
  lastDesc : String
  l : List String
  deriving DecidableEq, Repr

/-- One iteration of the loop of `GetCommandList` over the table. -/
def helpStep (ops : OpMethods) (st : HelpState) (c : commandMap) : HelpState :=
  if ops.IsInternal c.operation then st
  else
    let desc := ops.Describe c.operation c.opts
    let st :=
      if st.lastDesc ≠ desc then
        { list := if st.l.length > 0 then st.list.set st.lastDesc st.l else st.list,
          lastDesc := desc, l := [] }
      else st
    match overrides c.operation with
    | some override => { list := st.list.set desc [override], lastDesc := "", l := [] }
    | none => { st with l := st.l ++ [usageLine ops c] }

/-- The map `list` of `GetCommandList` once the loop and the final store are done. -/
def helpMap (ops : OpMethods) (cmds : List commandMap) : HelpMap :=
  let st := cmds.foldl (helpStep ops) { list := [], lastDesc := "", l := [] }
  if st.l.length > 0 then st.list.set st.lastDesc st.l else st.list

/-- `sort.Strings` on the keys of the map: ascending lexicographic order of the texts,
compared character by character. -/
def sortStrings (ks : List String) : List String :=
  ks.insertionSort (fun a b => a.data ≤ b.data)

/-- The sorted buckets of `GetCommandList`: each description with its usage lines. -/
def helpBuckets (ops : OpMethods) (cmds : List commandMap) : List (String × List String) :=
  let list := helpMap ops cmds
  (sortStrings (list.map Prod.fst)).map (fun k => (k, list.get k))

/-- The final text of `GetCommandList`, built from the sorted buckets. -/
def renderBuckets (bs : List (String × List String)) : String :=
  bs.foldl (fun ret b =>
    b.2.foldl (fun ret o => ret ++ "        " ++ o ++ "\n") (ret ++ "  " ++ b.1 ++ "\n")) ""

/-- `GetCommandList` for a given table: the text of accepted commands with their options and
arguments. -/
def GetCommandListOf (ops : OpMethods) (cmds : List commandMap) : String :=
  renderBuckets (helpBuckets ops cmds)

/-- `GetCommandList`: the help text of the command table `commands`. -/
def GetCommandList (ops : OpMethods) : String :=
  GetCommandListOf ops commands

/-- Loop invariant of `GetCommandList` for a description `d` none of whose lines is stored yet:
the map has no key `d`, and the lines collected for `d` are the slice `l` while `d` is the
current description. -/
def HelpState.Pending (d : String) (lines : List String) (st : HelpState) : Prop :=
  (∀ x ∈ st.list.map Prod.fst, x ≠ d) ∧ (st.list.map Prod.fst).Nodup ∧
  (st.lastDesc = d → st.l = lines) ∧ (st.lastDesc ≠ d → lines = [])

/-- Loop invariant of `GetCommandList` for a description `d` whose lines are stored: the map
holds `lines` under the key `d` and no further line is being collected for `d`. -/
def HelpState.Stored (d : String) (lines : List String) (st : HelpState) : Prop :=
  d ∈ st.list.map Prod.fst ∧ HelpMap.get st.list d = lines ∧ (st.list.map Prod.fst).Nodup ∧
  (st.lastDesc = d → st.l = [])

/-- The text `renderBuckets` writes for one bucket: the heading line, then the usage lines. -/
def bucketText (b : String × List String) : List Char :=
  "  ".data ++ b.1.data ++ '\n' :: b.2.flatMap (fun o => "        ".data ++ o.data ++ ['\n'])

/-- Operation methods of an example: nothing is internal, no option is accepted, and the
operations `Copy` and `Upload` share the description "Copy". -/
def groupingOps : OpMethods where
  IsInternal := fun _ => false
  Describe := fun o _ =>
    match o with
    | .Copy => "Copy"
    | .Upload => "Copy"
    | _ => "Delete"
  GetAcceptedOpts := fun _ => []

/-- Example table: two entries described "Copy" with an entry described "Delete" in between. -/
def splitTable : List commandMap := [
  ⟨"cp", .Copy, [S3Obj, S3ObjOrDir], []⟩,
  ⟨"rm", .Delete, [S3Obj], []⟩,
  ⟨"cp", .Upload, [FileObj, S3ObjOrDir], []⟩]

/-- Example table: the two entries described "Copy" next to each other. -/
def adjacentTable : List commandMap := [
  ⟨"cp", .Copy, [S3Obj, S3ObjOrDir], []⟩,
  ⟨"cp", .Upload, [FileObj, S3ObjOrDir], []⟩,
  ⟨"rm", .Delete, [S3Obj], []⟩]

/-- The text of a usage line is a keyword followed by tokens, each preceded by a space. -/
def spJoin (ts : List (List Char)) : List Char :=
  ts.flatMap (fun t => ' ' :: t)

/-- The token `[-rr]` of a usage line. -/
def rrTok : List Char := "[-rr]".data

/-- The token `[-ia]` of a usage line. -/
def iaTok : List Char := "[-ia]".data

/-- The token `[-rr|-ia]` of a usage line. -/
def mergedTok : List Char := "[-rr|-ia]".data

/-- The replacement of ` [-rr] [-ia] ` by ` [-rr|-ia] ` seen on the tokens of a usage line: a
pair `[-rr]`, `[-ia]` followed by a further token is merged, and the scan resumes after the
token that follows the pair, whose leading space the match has consumed. -/
def collapseTok : List (List Char) → List (List Char)
  | a :: b :: c :: rest =>
    if a = rrTok ∧ b = iaTok then mergedTok :: c :: collapseTok rest
    else a :: collapseTok (b :: c :: rest)
  | ts => ts

/-- The token ` [flag]` of an accepted option, without its leading space. -/
def optTok (o : OptionType) : List Char :=
  '[' :: (OptionType.GetParam o).data ++ [']']

/-- The tokens that follow the keyword on the usage line of an entry, before the collapse. -/
def lineTokens (ops : OpMethods) (c : commandMap) : List (List Char) :=
  (ops.GetAcceptedOpts c.operation).map optTok ++
    c.params.map (fun p => (ParamType.String p).data)

/-- Operation methods of an example: copies to the remote store accept `-n`, `-rr`, `-ia`, the
batch upload also `--parents` and `-R`, listings `-e` and `-h`; only the batch deletion worker
is internal. -/
def sampleOps : OpMethods where
  IsInternal := fun o =>
    match o with
    | .BatchDeleteActual => true
    | _ => false
  Describe := fun o opts =>
    match o with
    | .Abort => "Exit program"
    | .ShellExec => "Shell-execute"
    | .LocalCopy | .BatchLocalCopy => if opts.Has DeleteSource then "Move local" else "Copy local"
    | .Copy | .BatchCopy => if opts.Has DeleteSource then "Move remote" else "Copy remote"
    | .Upload | .BatchUpload => if opts.Has DeleteSource then "Upload and delete" else "Upload"
    | .Download | .BatchDownload =>
      if opts.Has DeleteSource then "Download and delete" else "Download"
    | .LocalDelete | .Delete | .BatchDelete | .BatchDeleteActual => "Delete"
    | .ListBuckets => "List buckets"
    | .List => "List objects"
    | .Size => "Total size"
  GetAcceptedOpts := fun o =>
    match o with
    | .Copy | .Upload | .BatchCopy => [IfNotExists, RR, IA]
    | .BatchUpload => [IfNotExists, Parents, Recursive, RR, IA]
    | .LocalCopy | .Download | .BatchDownload | .BatchLocalCopy => [IfNotExists]
    | .List => [ListETags, HumanReadable]
    | .Size => [HumanReadable]
    | _ => []

/-- Operation methods of an example in which the bucket listing, an entry without required
shapes, accepts `-rr` and `-ia`. -/
def pairAtEndOps : OpMethods where
  IsInternal := fun _ => false
  Describe := fun o _ =>
    match o with
    | .ListBuckets => "List buckets"
    | _ => "Other"
  GetAcceptedOpts := fun o =>
    match o with
    | .ListBuckets => [RR, IA]
    | _ => []

/-- Example table: an override entry followed by an entry with the same description under
`groupingOps`. -/
def overrideFirstTable : List commandMap := [
  ⟨"exit", .Abort, [], []⟩,
  ⟨"rm", .Delete, [S3Obj], []⟩]

/-- Example table: an entry followed by an override entry with the same description under
`groupingOps`. -/
def overrideLastTable : List commandMap := [
  ⟨"rm", .Delete, [S3Obj], []⟩,
  ⟨"exit", .Abort, [], []⟩]

/-- Where the lines of a bucket come from: the fixed text of an override, or the usage lines of
consecutive entries of `P`, in their order, that are not overrides and have the description of
the bucket. -/
def bucketSource (ops : OpMethods) (P : List commandMap) (kv : String × List String) : Prop :=
  (∃ o t, overrides o = some t ∧ kv.2 = [t]) ∨
  ∃ es : List commandMap, es <:+: P ∧
    (∀ c ∈ es, overrides c.operation = none ∧ ops.Describe c.operation c.opts = kv.1) ∧
    kv.2 = es.map (usageLine ops)

/-- Loop invariant of `GetCommandList` after the user-facing entries `P`: every stored bucket
has its source in `P`, and the slice `l` holds the usage lines of the last entries of `P`, all
of them non-override entries with the current description. -/
def HelpState.InOrder (ops : OpMethods) (P : List commandMap) (st : HelpState) : Prop :=
  (∀ kv ∈ st.list, bucketSource ops P kv) ∧
  ∃ es : List commandMap, es <:+ P ∧
    (∀ c ∈ es, overrides c.operation = none ∧ ops.Describe c.operation c.opts = st.lastDesc) ∧
    st.l = es.map (usageLine ops)

/-! ### Command resolver -/

/-- Modelled from the spec: whether a table entry matches the arguments, the resolver not being
among the sources. The arity matches (a final one-or-more shape matches any remaining arity of
at least one) and every required shape is among the candidates of the corresponding argument. -/
def entryMatches (c : commandMap) (keyword : String) (args : List (List ParamType)) : Bool :=
  decide (c.keyword = keyword) &&
  (if c.params.getLast? = some UncheckedOneOrMore then decide (c.params.length ≤ args.length)
   else decide (c.params.length = args.length)) &&
  (List.zip c.params args).all (fun pa => decide (pa.1 ∈ pa.2))

/-- Modelled from the spec: the command resolver, which is not among the sources. It scans the
table in declaration order and returns the first entry that matches the keyword and the
per-argument candidate shapes. -/
def resolveIn (cmds : List commandMap) (keyword : String) (args : List (List ParamType)) :
    Option commandMap :=
  cmds.find? (fun c => entryMatches c keyword args)

/-- Modelled from the spec: resolution against the command table `commands`. -/
def resolve (keyword : String) (args : List (List ParamType)) : Option commandMap :=
  resolveIn commands keyword args

/-! ### Theorems on the error classifier -/

theorem IsRetryableError_awsErr (code msg : String) :
    IsRetryableError (.awsErr code msg) =
      if code = "SlowDown" ∨ code = "SerializationError" then (code, true) else ("", false) := by
  simp [IsRetryableError, GoError.asAwsError, GoError.asRequestFailure]

theorem IsRetryableError_requestFailure (code msg : String) (status : Int) :
    IsRetryableError (.requestFailure code msg status) =
      if code = "SlowDown" ∨ code = "SerializationError" then (code, true)
      else if code = "InternalError" ∨ code = "SerializationError" then (code, true)
      else if status = 400 ∨ status = 500 then ("HTTP" ++ sprintfD status, true)
      else ("", false) := by
  simp [IsRetryableError, GoError.asAwsError, GoError.asRequestFailure]

theorem IsRetryableError_flag_iff (err : GoError) :
    (IsRetryableError err).2 = true ↔
      ∃ code, err.asAwsError = some code ∧
        ((code = "SlowDown" ∨ code = "SerializationError") ∨
          ∃ rcode status, err.asRequestFailure = some (rcode, status) ∧
            (code = "InternalError" ∨ status = 400 ∨ status = 500)) := by
  cases err with
  | nil => simp [IsRetryableError, GoError.asAwsError]
  | plain msg => simp [IsRetryableError, GoError.asAwsError]
  | acceptable inner => simp [IsRetryableError, GoError.asAwsError]
  | awsErr code msg =>
    rw [IsRetryableError_awsErr]
    by_cases h : code = "SlowDown" ∨ code = "SerializationError"
    · rw [if_pos h]
      exact ⟨fun _ => ⟨code, rfl, Or.inl h⟩, fun _ => rfl⟩
    · rw [if_neg h]
      constructor
      · intro hf
        exact absurd hf (by simp)
      · rintro ⟨c, hc, hd⟩
        simp only [GoError.asAwsError, Option.some.injEq] at hc
        subst hc
        rcases hd with hd | ⟨rc, st, hrs, -⟩
        · exact absurd hd h
        · simp [GoError.asRequestFailure] at hrs
  | requestFailure code msg status =>
    rw [IsRetryableError_requestFailure]
    constructor
    · intro hf
      refine ⟨code, rfl, ?_⟩
      by_cases h : code = "SlowDown" ∨ code = "SerializationError"
      · exact Or.inl h
      · right
        refine ⟨code, status, rfl, ?_⟩
        rw [if_neg h] at hf
        by_cases h2 : code = "InternalError" ∨ code = "SerializationError"
        · rcases h2 with h2 | h2
          · exact Or.inl h2
          · exact absurd (Or.inr h2) h
        · rw [if_neg h2] at hf
          by_cases h3 : status = 400 ∨ status = 500
          · exact Or.inr h3
          · rw [if_neg h3] at hf
            exact absurd hf (by simp)
    · rintro ⟨c, hc, hd⟩
      simp only [GoError.asAwsError, Option.some.injEq] at hc
      subst hc
      split_ifs <;> first | rfl | skip
      rename_i h h2 h3
      rcases hd with hd | ⟨rc, st, hrs, hd⟩
      · exact absurd hd h
      · simp only [GoError.asRequestFailure, Option.some.injEq, Prod.mk.injEq] at hrs
        obtain ⟨-, rfl⟩ := hrs
        rcases hd with hd | hd
        · exact absurd (Or.inl hd) h2
        · exact absurd hd h3

/-- C1: the retryable flag of `IsRetryableError` is true exactly when the error is a structured
service error and either its code is "SlowDown" or "SerializationError", or it is also a request
failure whose code is "InternalError" or whose status is 400 or 500. In particular nil, an
unstructured error and a service error coded "InternalError" without the HTTP layer are not
retryable. -/
theorem IsRetryableError_verdict :
    (∀ err : GoError, (IsRetryableError err).2 = true ↔
      ∃ code, err.asAwsError = some code ∧
        ((code = "SlowDown" ∨ code = "SerializationError") ∨
          ∃ rcode status, err.asRequestFailure = some (rcode, status) ∧
            (code = "InternalError" ∨ status = 400 ∨ status = 500))) ∧
    (IsRetryableError .nil).2 = false ∧
    (∀ msg, (IsRetryableError (.plain msg)).2 = false) ∧
    (∀ msg, (IsRetryableError (.awsErr "InternalError" msg)).2 = false) := by
  refine ⟨IsRetryableError_flag_iff, rfl, fun msg => rfl, fun msg => ?_⟩
  rw [IsRetryableError_awsErr]
  rfl

/-- C2: `IsRetryableError` returns ("SlowDown", true) for a service error coded "SlowDown",
with or without an HTTP status and whatever the status; ("HTTP400", true) and ("HTTP500", true)
for a request failure with status 400 and 500 whose code is none of "SlowDown",
"SerializationError", "InternalError"; and ("", false) for nil and for an unstructured error. -/
theorem IsRetryableError_codes :
    (∀ msg, IsRetryableError (.awsErr "SlowDown" msg) = ("SlowDown", true)) ∧
    (∀ msg status, IsRetryableError (.requestFailure "SlowDown" msg status) = ("SlowDown", true)) ∧
    (∀ code msg status, code ≠ "SlowDown" → code ≠ "SerializationError" →
      code ≠ "InternalError" → (status = 400 ∨ status = 500) →
      IsRetryableError (.requestFailure code msg status) = ("HTTP" ++ sprintfD status, true)) ∧
    ("HTTP" ++ sprintfD 400 = "HTTP400" ∧ "HTTP" ++ sprintfD 500 = "HTTP500") ∧
    IsRetryableError .nil = ("", false) ∧
    (∀ msg, IsRetryableError (.plain msg) = ("", false)) := by
  refine ⟨fun msg => ?_, fun msg status => ?_, fun code msg status h1 h2 h3 h4 => ?_,
    ⟨by decide, by decide⟩, rfl, fun msg => rfl⟩
  · rw [IsRetryableError_awsErr]; rfl
  · rw [IsRetryableError_requestFailure]; rfl
  · rw [IsRetryableError_requestFailure]
    have ha : ¬ (code = "SlowDown" ∨ code = "SerializationError") := by
      rintro (h | h)
      · exact h1 h
      · exact h2 h
    have hb : ¬ (code = "InternalError" ∨ code = "SerializationError") := by
      rintro (h | h)
      · exact h3 h
      · exact h2 h
    rw [if_neg ha, if_neg hb, if_pos h4]

/-- Instance of C2: an access-denied request failure with status 500 yields ("HTTP500", true). -/
theorem IsRetryableError_codes_witness :
    IsRetryableError (.requestFailure "AccessDenied" "denied" 500) = ("HTTP500", true) :=
  (IsRetryableError_codes.2.2.1 "AccessDenied" "denied" 500 (by decide) (by decide) (by decide)
    (Or.inr rfl)).trans (by decide)

/-- C5: an acceptable error is never retried: `IsRetryableError (NewAcceptableError s)` is
("", false) for every message. -/
theorem IsRetryableError_NewAcceptableError (s : String) :
    IsRetryableError (NewAcceptableError s) = ("", false) := by
  rfl

/-- C6: `IsAcceptableError` of `NewAcceptableError s` is non-nil, has the message `s` and is
acceptable; of nil, an unstructured error, a service error and a request failure it is nil. -/
theorem IsAcceptableError_only_acceptable :
    (∀ s, ∃ e, IsAcceptableError (NewAcceptableError s) = some e ∧ e.Error = some s ∧
      e.Acceptable = true) ∧
    IsAcceptableError .nil = none ∧
    (∀ msg, IsAcceptableError (.plain msg) = none) ∧
    (∀ code msg, IsAcceptableError (.awsErr code msg) = none) ∧
    (∀ code msg status, IsAcceptableError (.requestFailure code msg status) = none) := by
  refine ⟨fun s => ⟨⟨NewAcceptableError s⟩, rfl, rfl, rfl⟩, rfl, fun _ => rfl, fun _ _ => rfl,
    fun _ _ _ => rfl⟩

/-! ### Theorems on the command table -/

/-- C3: no two entries of `commands` have the same keyword and the same list of required
shapes, and for every entry the first-match scan, given the entry's keyword and the singleton
candidate sets of its required shapes, returns that very entry, hence its operation. -/
theorem commands_no_duplicate_signature :
    (commands.map (fun c => (c.keyword, c.params))).Nodup ∧
    (∀ c ∈ commands, resolve c.keyword (c.params.map (fun p => [p])) = some c) ∧
    (∀ c ∈ commands,
      (resolve c.keyword (c.params.map (fun p => [p]))).map commandMap.operation =
        some c.operation) := by
  refine ⟨by decide, by decide, by decide⟩

/-- C4: for the keyword "cp", and likewise "mv", a source argument whose candidates include
FileObj and Glob and a destination whose candidates include FileOrDir and Dir resolve to the
LocalCopy entry, although the later BatchLocalCopy (Glob, Dir) entry matches as well. -/
theorem resolve_file_to_file_first (src dst : List ParamType)
    (hs1 : FileObj ∈ src) (hs2 : Glob ∈ src) (hd1 : FileOrDir ∈ dst) (hd2 : Dir ∈ dst) :
    resolve "cp" [src, dst] = some ⟨"cp", .LocalCopy, [FileObj, FileOrDir], []⟩ ∧
    entryMatches ⟨"cp", .BatchLocalCopy, [Glob, Dir], []⟩ "cp" [src, dst] = true ∧
    resolve "mv" [src, dst] = some ⟨"mv", .LocalCopy, [FileObj, FileOrDir], [DeleteSource]⟩ ∧
    entryMatches ⟨"mv", .BatchLocalCopy, [Glob, Dir], [DeleteSource]⟩ "mv" [src, dst] = true := by
  refine ⟨?_, ?_, ?_, ?_⟩
  · simp [resolve, resolveIn, commands, List.find?, entryMatches, hs1, hd1]
  · simp [entryMatches, hs2, hd2]
  · simp [resolve, resolveIn, commands, List.find?, entryMatches, hs1, hd1]
  · simp [entryMatches, hs2, hd2]

/-- Instance of C4: candidates {FileObj, Glob} and {FileOrDir, Dir}. -/
theorem resolve_file_to_file_first_witness :
    resolve "cp" [[FileObj, Glob], [FileOrDir, Dir]] =
        some ⟨"cp", .LocalCopy, [FileObj, FileOrDir], []⟩ ∧
    entryMatches ⟨"cp", .BatchLocalCopy, [Glob, Dir], []⟩ "cp"
        [[FileObj, Glob], [FileOrDir, Dir]] = true ∧
    resolve "mv" [[FileObj, Glob], [FileOrDir, Dir]] =
        some ⟨"mv", .LocalCopy, [FileObj, FileOrDir], [DeleteSource]⟩ ∧
    entryMatches ⟨"mv", .BatchLocalCopy, [Glob, Dir], [DeleteSource]⟩ "mv"
        [[FileObj, Glob], [FileOrDir, Dir]] = true :=
  resolve_file_to_file_first [FileObj, Glob] [FileOrDir, Dir] (by decide) (by decide)
    (by decide) (by decide)

/-! ### Theorems on `CleanupError` -/

theorem replaceGo_single (a b : Char) (s : List Char) :
    replaceGo [a] [b] 0 s = s.map (fun c => if c = a then b else c) := by
  induction s with
  | nil => rfl
  | cons c cs ih =>
    by_cases h : c = a
    · subst h
      simp [replaceGo, ih]
    · have h' : ¬ a = c := fun e => h e.symm
      simp [replaceGo, ih, h, h']

theorem replaceGo_spaces_nil : replaceGo [' ', ' '] [' '] 0 [] = [] := rfl

theorem replaceGo_spaces_pair (r : List Char) :
    replaceGo [' ', ' '] [' '] 0 (' ' :: ' ' :: r) = ' ' :: replaceGo [' ', ' '] [' '] 0 r := by
  simp [replaceGo]

theorem replaceGo_spaces_single : replaceGo [' ', ' '] [' '] 0 [' '] = [' '] := by
  simp [replaceGo]

theorem replaceGo_spaces_space_ne (d : Char) (r : List Char) (hd : d ≠ ' ') :
    replaceGo [' ', ' '] [' '] 0 (' ' :: d :: r) =
      ' ' :: replaceGo [' ', ' '] [' '] 0 (d :: r) := by
  have hd' : ¬ ' ' = d := fun e => hd e.symm
  simp [replaceGo, hd']

theorem replaceGo_spaces_ne (c : Char) (r : List Char) (hc : c ≠ ' ') :
    replaceGo [' ', ' '] [' '] 0 (c :: r) = c :: replaceGo [' ', ' '] [' '] 0 r := by
  have hc' : ¬ ' ' = c := fun e => hc e.symm
  simp [replaceGo, hc']


theorem leadSpaces_le_maxSpaceRun (s : List Char) : leadSpaces s ≤ maxSpaceRun s := by
  cases s with
  | nil => exact Nat.le_refl _
  | cons c cs => exact Nat.le_max_left _ _

theorem maxSpaceRun_cons_le (c : Char) (s : List Char) :
    maxSpaceRun s ≤ maxSpaceRun (c :: s) :=
  Nat.le_max_right _ _

/-- One pass of the double-space replacement halves, rounding up, the leading run and the
longest run of spaces. -/
theorem replaceGo_spaces_runs (n : Nat) : ∀ s : List Char, s.length ≤ n →
    leadSpaces (replaceGo [' ', ' '] [' '] 0 s) ≤ (leadSpaces s + 1) / 2 ∧
    maxSpaceRun (replaceGo [' ', ' '] [' '] 0 s) ≤ (maxSpaceRun s + 1) / 2 := by
  induction n with
  | zero =>
    intro s hs
    have : s = [] := List.length_eq_zero.mp (Nat.le_zero.mp hs)
    subst this
    exact ⟨Nat.zero_le _, Nat.zero_le _⟩
  | succ n ih =>
    intro s hs
    match s, hs with
    | [], _ => exact ⟨Nat.zero_le _, Nat.zero_le _⟩
    | c :: r, hs =>
      have hr : r.length ≤ n := by simpa using hs
      by_cases hc : c = ' '
      · subst hc
        match r, hr with
        | [], _ =>
          rw [replaceGo_spaces_single]
          simp [leadSpaces, maxSpaceRun]
        | d :: r', hr =>
          by_cases hd : d = ' '
          · subst hd
            have hr' : r'.length ≤ n := by
              simp only [List.length_cons] at hr
              omega
            obtain ⟨h1, h2⟩ := ih r' hr'
            have h3 := leadSpaces_le_maxSpaceRun r'
            rw [replaceGo_spaces_pair]
            simp only [leadSpaces, maxSpaceRun, if_true]
            refine ⟨by omega, ?_⟩
            simp only [leadSpaces, if_true] at *
            omega
          · obtain ⟨h1, h2⟩ := ih (d :: r') hr
            rw [replaceGo_spaces_space_ne d r' hd, replaceGo_spaces_ne d r' hd] at *
            simp only [leadSpaces, maxSpaceRun, hd, if_true, if_false] at *
            omega
      · obtain ⟨h1, h2⟩ := ih r hr
        rw [replaceGo_spaces_ne c r hc]
        simp only [leadSpaces, maxSpaceRun, hc, if_false]
        omega


theorem replicate_prefix_le_leadSpaces (k : Nat) : ∀ s : List Char,
    List.replicate k ' ' <+: s → k ≤ leadSpaces s := by
  induction k with
  | zero => intro s _; exact Nat.zero_le _
  | succ k ih =>
    intro s h
    rw [List.replicate_succ] at h
    cases s with
    | nil => simp at h
    | cons c r =>
      rw [List.cons_prefix_cons] at h
      obtain ⟨hc, hr⟩ := h
      subst hc
      have := ih r hr
      simp only [leadSpaces, if_true]
      omega

theorem replicate_prefix_of_le_leadSpaces (k : Nat) : ∀ s : List Char,
    k ≤ leadSpaces s → List.replicate k ' ' <+: s := by
  induction k with
  | zero => intro s _; exact List.nil_prefix
  | succ k ih =>
    intro s h
    cases s with
    | nil => simp [leadSpaces] at h
    | cons c r =>
      by_cases hc : c = ' '
      · subst hc
        simp only [leadSpaces, if_true] at h
        rw [List.replicate_succ, List.cons_prefix_cons]
        exact ⟨rfl, ih r (by omega)⟩
      · simp [leadSpaces, hc] at h

/-- A text contains `k` consecutive spaces exactly when its longest run has length at least
`k`. -/
theorem replicate_infix_iff_le_maxSpaceRun (k : Nat) (s : List Char) :
    List.replicate k ' ' <:+: s ↔ k ≤ maxSpaceRun s := by
  induction s with
  | nil =>
    constructor
    · intro h
      have := List.eq_nil_of_infix_nil h
      have hk : k = 0 := by simpa using congrArg List.length this
      omega
    · intro h
      have hk : k = 0 := by simpa [maxSpaceRun] using h
      subst hk
      exact List.nil_infix
  | cons c r ih =>
    rw [List.infix_cons_iff, ih]
    constructor
    · rintro (h | h)
      · exact Nat.le_trans (replicate_prefix_le_leadSpaces k _ h) (leadSpaces_le_maxSpaceRun _)
      · exact Nat.le_trans h (maxSpaceRun_cons_le c r)
    · intro h
      by_cases hl : k ≤ leadSpaces (c :: r)
      · exact Or.inl (replicate_prefix_of_le_leadSpaces k _ hl)
      · right
        simp only [maxSpaceRun] at h
        omega

theorem infix_map_exists {α β : Type} (F : α → β) (t' : List β) (l : List α)
    (h : t' <:+: l.map F) : ∃ t, t <:+: l ∧ t.map F = t' := by
  obtain ⟨a, b, hab⟩ := h
  obtain ⟨l₁, l₂, hl, h₁, h₂⟩ := List.map_eq_append_iff.mp hab.symm
  obtain ⟨l₃, l₄, hl', h₃, h₄⟩ := List.map_eq_append_iff.mp h₁
  refine ⟨l₄, ⟨l₃, l₂, ?_⟩, h₄⟩
  rw [hl, hl']


theorem mem_replaceGo (old new : List Char) (x : Char) : ∀ (s : List Char) (k : Nat),
    x ∈ replaceGo old new k s → x ∈ s ∨ x ∈ new := by
  intro s
  induction s with
  | nil => intro k h; cases k <;> simp [replaceGo] at h
  | cons c cs ih =>
    intro k h
    cases k with
    | succ k =>
      simp only [replaceGo] at h
      rcases ih k h with h | h
      · exact Or.inl (List.mem_cons_of_mem _ h)
      · exact Or.inr h
    | zero =>
      simp only [replaceGo] at h
      split_ifs at h
      · rcases List.mem_append.mp h with h | h
        · exact Or.inr h
        · rcases ih _ h with h | h
          · exact Or.inl (List.mem_cons_of_mem _ h)
          · exact Or.inr h
      · rcases List.mem_cons.mp h with h | h
        · exact Or.inl (h ▸ List.mem_cons_self _ _)
        · rcases ih _ h with h | h
          · exact Or.inl (List.mem_cons_of_mem _ h)
          · exact Or.inr h

/-- The text computed by `CleanupError`, on the characters of the message. -/
theorem CleanupError_data (err : GoError) (msg : String) (hmsg : err.Error = some msg) :
    CleanupError err = some ⟨((replaceGo [' ', ' '] [' '] 0 (replaceGo [' ', ' '] [' '] 0
      ((msg.data.map (fun c => if c = '\n' then ' ' else c)).map
        (fun c => if c = '\t' then ' ' else c)))).dropWhile unicodeIsSpace).rdropWhile
          unicodeIsSpace⟩ := by
  have e1 : ∀ s : String, stringsReplaceAll s "\n" " " =
      ⟨s.data.map (fun c => if c = '\n' then ' ' else c)⟩ := fun s => by
    rw [← replaceGo_single]; rfl
  have e2 : ∀ s : String, stringsReplaceAll s "\t" " " =
      ⟨s.data.map (fun c => if c = '\t' then ' ' else c)⟩ := fun s => by
    rw [← replaceGo_single]; rfl
  have e3 : ∀ s : String, stringsReplaceAll s "  " " " =
      ⟨replaceGo [' ', ' '] [' '] 0 s.data⟩ := fun s => rfl
  simp only [CleanupError, hmsg, e1, e2, e3, stringsTrimSpace]

theorem blank_run_le_maxSpaceRun (l t : List Char) (ht : t <:+: l)
    (hb : ∀ c ∈ t, c = ' ' ∨ c = '\n' ∨ c = '\t') :
    t.length ≤ maxSpaceRun ((l.map (fun c => if c = '\n' then ' ' else c)).map
      (fun c => if c = '\t' then ' ' else c)) := by
  rw [← replicate_infix_iff_le_maxSpaceRun]
  have h1 := (ht.map (fun c => if c = '\n' then ' ' else c)).map
    (fun c => if c = '\t' then ' ' else c)
  have h2 : (t.map (fun c => if c = '\n' then ' ' else c)).map
      (fun c => if c = '\t' then ' ' else c) = List.replicate t.length ' ' := by
    rw [List.eq_replicate_iff]
    refine ⟨by simp, ?_⟩
    intro b hb'
    simp only [List.map_map, List.mem_map, Function.comp] at hb'
    obtain ⟨a, ha, rfl⟩ := hb'
    rcases hb a ha with h | h | h <;> subst h <;> decide
  rw [← h2]
  exact h1


/-- C7, as the code has it: when the message has no run of more than four consecutive space,
newline or tab characters, `CleanupError` returns a text without two consecutive spaces. -/
theorem CleanupError_no_double_space (err : GoError) (msg : String)
    (hmsg : err.Error = some msg)
    (hrun : ∀ t : List Char, t <:+: msg.data → (∀ c ∈ t, c = ' ' ∨ c = '\n' ∨ c = '\t') →
      t.length ≤ 4) :
    ∃ r, CleanupError err = some r ∧ ¬ [' ', ' '] <:+: r.data := by
  refine ⟨_, CleanupError_data err msg hmsg, ?_⟩
  intro hinf
  have h0 : maxSpaceRun ((msg.data.map (fun c => if c = '\n' then ' ' else c)).map
      (fun c => if c = '\t' then ' ' else c)) ≤ 4 := by
    by_contra hlt
    have h5 : 5 ≤ maxSpaceRun ((msg.data.map (fun c => if c = '\n' then ' ' else c)).map
      (fun c => if c = '\t' then ' ' else c)) := by omega
    rw [← replicate_infix_iff_le_maxSpaceRun, List.map_map] at h5
    obtain ⟨t, ht, hmap⟩ := infix_map_exists _ _ _ h5
    have hlen : t.length = 5 := by simpa using congrArg List.length hmap
    have hb : ∀ c ∈ t, c = ' ' ∨ c = '\n' ∨ c = '\t' := by
      intro c hc
      have hc' : (if (if c = '\n' then ' ' else c) = '\t' then ' '
          else (if c = '\n' then ' ' else c)) = ' ' := by
        have hm : ((fun c => if c = '\t' then ' ' else c) ∘
            (fun c => if c = '\n' then ' ' else c)) c ∈ List.replicate 5 ' ' := by
          rw [← hmap]
          exact List.mem_map_of_mem _ hc
        exact (List.mem_replicate.mp hm).2
      by_cases h1 : c = '\n'
      · exact Or.inr (Or.inl h1)
      · by_cases h2 : c = '\t'
        · exact Or.inr (Or.inr h2)
        · simp only [h1, h2, if_false] at hc'
          exact Or.inl hc'
    have := hrun t ht hb
    omega
  have h1 := (replaceGo_spaces_runs _ _ (Nat.le_refl _)).2.trans
    (Nat.div_le_div_right (Nat.add_le_add_right h0 1))
  have h2 := (replaceGo_spaces_runs _ _ (Nat.le_refl _)).2.trans
    (Nat.div_le_div_right (Nat.add_le_add_right h1 1))
  have hin : [' ', ' '] <:+: replaceGo [' ', ' '] [' '] 0 (replaceGo [' ', ' '] [' '] 0
      ((msg.data.map (fun c => if c = '\n' then ' ' else c)).map
        (fun c => if c = '\t' then ' ' else c))) :=
    hinf.trans ((List.rdropWhile_prefix _ _).isInfix.trans (List.dropWhile_suffix _).isInfix)
  have h3 := (replicate_infix_iff_le_maxSpaceRun 2 _).mp hin
  have h4 := h3.trans h2
  omega

/-- Instance of C7: a message with runs of four blank characters is cleaned to single spaces. -/
theorem CleanupError_no_double_space_witness :
    ∃ r, CleanupError (.plain "a \n\t b    c") = some r ∧ ¬ [' ', ' '] <:+: r.data :=
  CleanupError_no_double_space (.plain "a \n\t b    c") "a \n\t b    c" rfl
    (fun t ht hb => (blank_run_le_maxSpaceRun _ t ht hb).trans (by decide))

/-- Counterexample to C7 as stated: a run of five spaces leaves two consecutive spaces. -/
theorem CleanupError_double_space_remains :
    CleanupError (.plain "a     b") = some "a  b" ∧ [' ', ' '] <:+: "a  b".data := by
  refine ⟨by decide, ⟨['a'], ['b'], by decide⟩⟩

/-- For an error whose `Error()` returns a message, the text `CleanupError` returns has no
newline and no tab, and is empty or begins and ends with a character that is not white space;
the message "line one\n\tline two  end" yields "line one line two end". -/
theorem CleanupError_trimmed_of_message :
    (∀ (err : GoError) (msg : String), err.Error = some msg →
      ∃ r, CleanupError err = some r ∧ '\n' ∉ r.data ∧ '\t' ∉ r.data ∧
        (r.data = [] ∨ ∃ h : r.data ≠ [],
          unicodeIsSpace (r.data.head h) = false ∧ unicodeIsSpace (r.data.getLast h) = false)) ∧
    CleanupError (.plain "line one\n\tline two  end") = some "line one line two end" := by
  refine ⟨fun err msg hmsg => ⟨_, CleanupError_data err msg hmsg, ?_, ?_, ?_⟩, by decide⟩
  · intro hmem
    have h1 := (List.dropWhile_suffix _).mem ((List.rdropWhile_prefix _ _).mem hmem)
    rcases mem_replaceGo _ _ _ _ _ h1 with h2 | h2
    · rcases mem_replaceGo _ _ _ _ _ h2 with h3 | h3
      · simp only [List.map_map, List.mem_map, Function.comp] at h3
        obtain ⟨a, -, ha⟩ := h3
        by_cases e1 : a = '\n'
        · subst e1
          exact absurd ha (by decide)
        · by_cases e2 : a = '\t'
          · subst e2
            exact absurd ha (by decide)
          · simp only [e1, e2, if_false] at ha
      · exact absurd h3 (by decide)
    · exact absurd h2 (by decide)
  · intro hmem
    have h1 := (List.dropWhile_suffix _).mem ((List.rdropWhile_prefix _ _).mem hmem)
    rcases mem_replaceGo _ _ _ _ _ h1 with h2 | h2
    · rcases mem_replaceGo _ _ _ _ _ h2 with h3 | h3
      · simp only [List.map_map, List.mem_map, Function.comp] at h3
        obtain ⟨a, -, ha⟩ := h3
        by_cases e1 : a = '\n'
        · subst e1
          exact absurd ha (by decide)
        · by_cases e2 : a = '\t'
          · subst e2
            exact absurd ha (by decide)
          · simp only [e1, e2, if_false] at ha
      · exact absurd h3 (by decide)
    · exact absurd h2 (by decide)
  · by_cases hnil : List.rdropWhile unicodeIsSpace (List.dropWhile unicodeIsSpace
        (replaceGo [' ', ' '] [' '] 0 (replaceGo [' ', ' '] [' '] 0
          ((msg.data.map (fun c => if c = '\n' then ' ' else c)).map
            (fun c => if c = '\t' then ' ' else c))))) = []
    · exact Or.inl hnil
    · refine Or.inr ⟨hnil, ?_, ?_⟩
      · have hp := List.rdropWhile_prefix unicodeIsSpace (List.dropWhile unicodeIsSpace
          (replaceGo [' ', ' '] [' '] 0 (replaceGo [' ', ' '] [' '] 0
            ((msg.data.map (fun c => if c = '\n' then ' ' else c)).map
              (fun c => if c = '\t' then ' ' else c)))))
        show unicodeIsSpace (List.head _ hnil) = false
        rw [hp.head hnil]
        exact List.head_dropWhile_not _ _ _
      · have := List.rdropWhile_last_not (p := unicodeIsSpace) _ hnil
        simpa using this


/-- C8, as the code has it: for every error whose `Error()` returns a message, the text
`CleanupError` returns has no newline and no tab, and is empty or begins and ends with a
character that is not white space; `CleanupError` returns nothing exactly when `Error()` does
not, which among the non-nil errors happens only for an `AcceptableErrorType` wrapping such an
error; unstructured errors, errors of `NewAcceptableError`, service errors and request failures
have a message; and the message "line one\n\tline two  end" yields "line one line two end". -/
theorem CleanupError_single_trimmed_line :
    (∀ (err : GoError) (msg : String), err.Error = some msg →
      ∃ r, CleanupError err = some r ∧ '\n' ∉ r.data ∧ '\t' ∉ r.data ∧
        (r.data = [] ∨ ∃ h : r.data ≠ [],
          unicodeIsSpace (r.data.head h) = false ∧ unicodeIsSpace (r.data.getLast h) = false)) ∧
    (∀ err : GoError, CleanupError err = none ↔ err.Error = none) ∧
    (∀ err : GoError, err.Error = none →
      err = .nil ∨ ∃ inner, err = .acceptable inner ∧ inner.Error = none) ∧
    (∀ s, (GoError.plain s).Error = some s) ∧
    (∀ s, (NewAcceptableError s).Error = some s) ∧
    (∀ code s, (GoError.awsErr code s).Error = some s) ∧
    (∀ code s status, (GoError.requestFailure code s status).Error = some s) ∧
    CleanupError (.plain "line one\n\tline two  end") = some "line one line two end" := by
  refine ⟨CleanupError_trimmed_of_message.1, fun err => ?_, fun err herr => ?_, fun _ => rfl,
    fun _ => rfl, fun _ _ => rfl, fun _ _ _ => rfl, CleanupError_trimmed_of_message.2⟩
  · unfold CleanupError
    cases err.Error <;> simp
  · cases err with
    | nil => exact Or.inl rfl
    | plain msg => simp [GoError.Error] at herr
    | acceptable inner => exact Or.inr ⟨inner, rfl, herr⟩
    | awsErr code msg => simp [GoError.Error] at herr
    | requestFailure code msg status => simp [GoError.Error] at herr

/-- Instance of C8: an acceptable error with tabs, newlines and blanks around its message. -/
theorem CleanupError_single_trimmed_line_witness :
    ∃ r, CleanupError (NewAcceptableError " \tfile exists\n ") = some r ∧
      '\n' ∉ r.data ∧ '\t' ∉ r.data ∧
      (r.data = [] ∨ ∃ h : r.data ≠ [],
        unicodeIsSpace (r.data.head h) = false ∧ unicodeIsSpace (r.data.getLast h) = false) :=
  CleanupError_single_trimmed_line.1 (NewAcceptableError " \tfile exists\n ")
    " \tfile exists\n " rfl

/-- Counterexample to C8 as stated: the zero value `AcceptableErrorType{}` is a non-nil error
that wraps a nil error; its `Error()` dereferences nil and `CleanupError` returns nothing. -/
theorem CleanupError_nil_wrapped :
    GoError.acceptable .nil ≠ GoError.nil ∧ (GoError.acceptable .nil).Error = none ∧
    CleanupError (GoError.acceptable .nil) = none := by
  refine ⟨by decide, rfl, rfl⟩

/-! ### Theorems on `GetCommandList` -/

set_option maxRecDepth 100000

theorem HelpMap.keys_set (m : HelpMap) (k : String) (v : List String) (x : String) :
    x ∈ (HelpMap.set m k v).map Prod.fst ↔ x ∈ m.map Prod.fst ∨ x = k := by
  induction m with
  | nil => simp [HelpMap.set]
  | cons kv rest ih =>
    obtain ⟨k', v'⟩ := kv
    by_cases h : k' = k
    · subst h
      simp only [HelpMap.set, if_true, List.map_cons, List.mem_cons]
      tauto
    · simp only [HelpMap.set, h, if_false, List.map_cons, List.mem_cons, ih]
      tauto

theorem HelpMap.nodup_set (m : HelpMap) (k : String) (v : List String)
    (h : (m.map Prod.fst).Nodup) : ((HelpMap.set m k v).map Prod.fst).Nodup := by
  induction m with
  | nil => simp [HelpMap.set]
  | cons kv rest ih =>
    obtain ⟨k', v'⟩ := kv
    rw [List.map_cons, List.nodup_cons] at h
    by_cases hk : k' = k
    · subst hk
      simpa [HelpMap.set] using h
    · simp only [HelpMap.set, hk, if_false, List.map_cons, List.nodup_cons]
      refine ⟨?_, ih h.2⟩
      rw [HelpMap.keys_set]
      rintro (h' | h')
      · exact h.1 h'
      · exact hk h'

theorem HelpMap.get_set_self (m : HelpMap) (k : String) (v : List String) :
    HelpMap.get (HelpMap.set m k v) k = v := by
  induction m with
  | nil => simp [HelpMap.set, HelpMap.get]
  | cons kv rest ih =>
    obtain ⟨k', v'⟩ := kv
    by_cases hk : k' = k
    · subst hk
      simp [HelpMap.set, HelpMap.get]
    · simp [HelpMap.set, HelpMap.get, hk, ih]

theorem HelpMap.get_set_ne (m : HelpMap) (k : String) (v : List String) (x : String)
    (hx : k ≠ x) : HelpMap.get (HelpMap.set m k v) x = HelpMap.get m x := by
  induction m with
  | nil => simp [HelpMap.set, HelpMap.get, hx]
  | cons kv rest ih =>
    obtain ⟨k', v'⟩ := kv
    by_cases hk : k' = k
    · subst hk
      simp [HelpMap.set, HelpMap.get, hx]
    · by_cases hk' : k' = x
      · subst hk'
        simp [HelpMap.set, HelpMap.get, hk]
      · simp [HelpMap.set, HelpMap.get, hk, hk', ih]

/-- Internal entries leave the loop state unchanged: the loop over a table is the loop over its
user-facing entries. -/
theorem foldl_helpStep_filter (ops : OpMethods) (cmds : List commandMap) :
    ∀ st : HelpState, cmds.foldl (helpStep ops) st =
      (cmds.filter (fun c => !ops.IsInternal c.operation)).foldl (helpStep ops) st := by
  induction cmds with
  | nil => intro st; rfl
  | cons c rest ih =>
    intro st
    by_cases hc : ops.IsInternal c.operation = true
    · simp [List.filter, hc, helpStep, ih]
    · simp only [Bool.not_eq_true] at hc
      simp [List.filter, hc, ih]


/-- The loop step for a user-facing entry, spelled out. -/
theorem helpStep_user (ops : OpMethods) (st : HelpState) (c : commandMap)
    (hc : ops.IsInternal c.operation = false) :
    helpStep ops st c =
      match overrides c.operation with
      | some override =>
        { list := HelpMap.set (if st.lastDesc ≠ ops.Describe c.operation c.opts then
              (if st.l.length > 0 then HelpMap.set st.list st.lastDesc st.l else st.list)
            else st.list) (ops.Describe c.operation c.opts) [override],
          lastDesc := "", l := [] }
      | none =>
        if st.lastDesc ≠ ops.Describe c.operation c.opts then
          { list := if st.l.length > 0 then HelpMap.set st.list st.lastDesc st.l else st.list,
            lastDesc := ops.Describe c.operation c.opts, l := [usageLine ops c] }
        else { st with l := st.l ++ [usageLine ops c] } := by
  simp only [helpStep, hc]
  by_cases h : st.lastDesc = ops.Describe c.operation c.opts
  · cases overrides c.operation <;> simp [h]
  · cases overrides c.operation <;> simp [h]

/-- The keys of the pending store `list[lastDesc] = l`, done only for a non-empty `l`. -/
theorem keys_store (m : HelpMap) (k : String) (l : List String) (x : String)
    (hx : x ∈ (if l.length > 0 then HelpMap.set m k l else m).map Prod.fst) :
    x ∈ m.map Prod.fst ∨ (x = k ∧ l ≠ []) := by
  by_cases hl : l.length > 0
  · rw [if_pos hl, HelpMap.keys_set] at hx
    rcases hx with hx | hx
    · exact Or.inl hx
    · exact Or.inr ⟨hx, List.ne_nil_of_length_pos hl⟩
  · rw [if_neg hl] at hx
    exact Or.inl hx

theorem nodup_store (m : HelpMap) (k : String) (l : List String)
    (h : (m.map Prod.fst).Nodup) :
    ((if l.length > 0 then HelpMap.set m k l else m).map Prod.fst).Nodup := by
  by_cases hl : l.length > 0
  · rw [if_pos hl]
    exact HelpMap.nodup_set m k l h
  · rw [if_neg hl]
    exact h


/-- A user-facing entry with another description keeps the invariant "nothing collected for
`d`". -/
theorem helpStep_pending_other (ops : OpMethods) (st : HelpState) (c : commandMap) (d : String)
    (hc : ops.IsInternal c.operation = false)
    (hd : ops.Describe c.operation c.opts ≠ d)
    (h : HelpState.Pending d [] st) : HelpState.Pending d [] (helpStep ops st c) := by
  obtain ⟨hk, hn, hl, -⟩ := h
  have hstore : ∀ x ∈ (if st.l.length > 0 then HelpMap.set st.list st.lastDesc st.l
      else st.list).map Prod.fst, x ≠ d := by
    intro x hx
    rcases keys_store _ _ _ _ hx with hx | ⟨hx, hne⟩
    · exact hk x hx
    · subst hx
      exact fun e => hne (hl e)
  rw [helpStep_user ops st c hc]
  cases overrides c.operation with
  | some o =>
    by_cases he : st.lastDesc = ops.Describe c.operation c.opts
    · refine ⟨?_, ?_, fun _ => rfl, fun _ => rfl⟩
      · intro x hx
        simp only [ne_eq, he, not_true_eq_false, if_false] at hx
        rcases (HelpMap.keys_set _ _ _ _).mp hx with hx | hx
        · exact hk x hx
        · exact hx ▸ hd
      · simp only [ne_eq, he, not_true_eq_false, if_false]
        exact HelpMap.nodup_set _ _ _ hn
    · refine ⟨?_, ?_, fun _ => rfl, fun _ => rfl⟩
      · intro x hx
        simp only [ne_eq, he, not_false_eq_true, if_true] at hx
        rcases (HelpMap.keys_set _ _ _ _).mp hx with hx | hx
        · exact hstore x hx
        · exact hx ▸ hd
      · simp only [ne_eq, he, not_false_eq_true, if_true]
        exact HelpMap.nodup_set _ _ _ (nodup_store _ _ _ hn)
  | none =>
    by_cases he : st.lastDesc = ops.Describe c.operation c.opts
    · simp only [ne_eq, he, not_true_eq_false, if_false]
      exact ⟨hk, hn, fun e => absurd e hd, fun _ => rfl⟩
    · simp only [ne_eq, he, not_false_eq_true, if_true]
      exact ⟨hstore, nodup_store _ _ _ hn, fun e => absurd e hd, fun _ => rfl⟩

/-- A user-facing, non-override entry with description `d` adds its usage line to the lines
collected for `d`. -/
theorem helpStep_pending_same (ops : OpMethods) (st : HelpState) (c : commandMap) (d : String)
    (lines : List String)
    (hc : ops.IsInternal c.operation = false)
    (ho : overrides c.operation = none)
    (hd : ops.Describe c.operation c.opts = d)
    (h : HelpState.Pending d lines st) :
    HelpState.Pending d (lines ++ [usageLine ops c]) (helpStep ops st c) := by
  obtain ⟨hk, hn, hl, hl'⟩ := h
  rw [helpStep_user ops st c hc, ho]
  subst hd
  by_cases he : st.lastDesc = ops.Describe c.operation c.opts
  · simp only [ne_eq, he, not_true_eq_false, if_false]
    exact ⟨hk, hn, fun _ => by rw [hl he], fun e => absurd rfl e⟩
  · simp only [ne_eq, he, not_false_eq_true, if_true]
    refine ⟨?_, nodup_store _ _ _ hn, fun _ => by rw [hl' he]; rfl, fun e => absurd rfl e⟩
    intro x hx
    rcases keys_store _ _ _ _ hx with hx | ⟨hx, -⟩
    · exact hk x hx
    · exact hx ▸ he


/-- The pending store keeps the lines stored for `d` when it is not a store of lines for `d`. -/
theorem stored_store (m : HelpMap) (k d : String) (l lines : List String)
    (hmem : d ∈ m.map Prod.fst) (hget : HelpMap.get m d = lines) (hk : k = d → l = []) :
    d ∈ (if l.length > 0 then HelpMap.set m k l else m).map Prod.fst ∧
    HelpMap.get (if l.length > 0 then HelpMap.set m k l else m) d = lines := by
  by_cases hl : l.length > 0
  · have hkd : k ≠ d := fun e => List.ne_nil_of_length_pos hl (hk e)
    rw [if_pos hl]
    exact ⟨(HelpMap.keys_set _ _ _ _).mpr (Or.inl hmem), by rw [HelpMap.get_set_ne _ _ _ _ hkd, hget]⟩
  · rw [if_neg hl]
    exact ⟨hmem, hget⟩

/-- After the lines of `d` are collected, a user-facing entry with another description stores
them under `d`, or leaves them stored. -/
theorem helpStep_stored (ops : OpMethods) (st : HelpState) (c : commandMap) (d : String)
    (lines : List String) (hlines : lines ≠ [])
    (hc : ops.IsInternal c.operation = false)
    (hd : ops.Describe c.operation c.opts ≠ d)
    (h : HelpState.Pending d lines st ∨ HelpState.Stored d lines st) :
    HelpState.Stored d lines (helpStep ops st c) := by
  have hne : st.lastDesc = ops.Describe c.operation c.opts → st.lastDesc ≠ d :=
    fun e e' => hd (e.symm.trans e')
  -- the map after the conditional store, when the description changes
  have hstore : st.lastDesc ≠ ops.Describe c.operation c.opts →
      d ∈ (if st.l.length > 0 then HelpMap.set st.list st.lastDesc st.l
        else st.list).map Prod.fst ∧
      HelpMap.get (if st.l.length > 0 then HelpMap.set st.list st.lastDesc st.l
        else st.list) d = lines := by
    intro _
    rcases h with ⟨hk, hn, hl, hl'⟩ | ⟨hmem, hget, hn, hl⟩
    · have hlast : st.lastDesc = d := by
        by_contra hcon
        exact hlines (hl' hcon)
      have hl2 : st.l = lines := hl hlast
      have hpos : st.l.length > 0 := by
        rw [hl2]
        exact List.length_pos.mpr hlines
      rw [if_pos hpos, hlast, hl2]
      exact ⟨(HelpMap.keys_set _ _ _ _).mpr (Or.inr rfl), HelpMap.get_set_self _ _ _⟩
    · exact stored_store _ _ _ _ _ hmem hget hl
  -- the map when the description does not change
  have hsame : st.lastDesc = ops.Describe c.operation c.opts →
      d ∈ st.list.map Prod.fst ∧ HelpMap.get st.list d = lines := by
    intro e
    rcases h with ⟨hk, hn, hl, hl'⟩ | ⟨hmem, hget, hn, hl⟩
    · exact absurd (hl' (hne e)) hlines
    · exact ⟨hmem, hget⟩
  have hnodup : (st.list.map Prod.fst).Nodup := by
    rcases h with ⟨_, hn, _, _⟩ | ⟨_, _, hn, _⟩ <;> exact hn
  rw [helpStep_user ops st c hc]
  cases overrides c.operation with
  | some o =>
    by_cases he : st.lastDesc = ops.Describe c.operation c.opts
    · simp only [ne_eq, he, not_true_eq_false, if_false]
      obtain ⟨h1, h2⟩ := hsame he
      exact ⟨(HelpMap.keys_set _ _ _ _).mpr (Or.inl h1),
        by rw [HelpMap.get_set_ne _ _ _ _ hd, h2], HelpMap.nodup_set _ _ _ hnodup, fun _ => rfl⟩
    · simp only [ne_eq, he, not_false_eq_true, if_true]
      obtain ⟨h1, h2⟩ := hstore he
      exact ⟨(HelpMap.keys_set _ _ _ _).mpr (Or.inl h1),
        by rw [HelpMap.get_set_ne _ _ _ _ hd, h2],
        HelpMap.nodup_set _ _ _ (nodup_store _ _ _ hnodup), fun _ => rfl⟩
  | none =>
    by_cases he : st.lastDesc = ops.Describe c.operation c.opts
    · simp only [ne_eq, he, not_true_eq_false, if_false]
      obtain ⟨h1, h2⟩ := hsame he
      exact ⟨h1, h2, hnodup, fun e => absurd e hd⟩
    · simp only [ne_eq, he, not_false_eq_true, if_true]
      obtain ⟨h1, h2⟩ := hstore he
      exact ⟨h1, h2, nodup_store _ _ _ hnodup, fun e => absurd e hd⟩

theorem foldl_helpStep_pending_other (ops : OpMethods) (d : String) (cmds : List commandMap) :
    ∀ st : HelpState,
    (∀ c ∈ cmds, ops.IsInternal c.operation = false ∧ ops.Describe c.operation c.opts ≠ d) →
    HelpState.Pending d [] st → HelpState.Pending d [] (cmds.foldl (helpStep ops) st) := by
  induction cmds with
  | nil => intro st _ h; exact h
  | cons c rest ih =>
    intro st hall h
    have hc := hall c (List.mem_cons_self _ _)
    exact ih _ (fun c' hc' => hall c' (List.mem_cons_of_mem _ hc'))
      (helpStep_pending_other ops st c d hc.1 hc.2 h)

theorem foldl_helpStep_pending_same (ops : OpMethods) (d : String) (cmds : List commandMap) :
    ∀ (st : HelpState) (lines : List String),
    (∀ c ∈ cmds, ops.IsInternal c.operation = false ∧ overrides c.operation = none ∧
      ops.Describe c.operation c.opts = d) →
    HelpState.Pending d lines st →
    HelpState.Pending d (lines ++ cmds.map (usageLine ops)) (cmds.foldl (helpStep ops) st) := by
  induction cmds with
  | nil => intro st lines _ h; simpa using h
  | cons c rest ih =>
    intro st lines hall h
    have hc := hall c (List.mem_cons_self _ _)
    have := ih _ _ (fun c' hc' => hall c' (List.mem_cons_of_mem _ hc'))
      (helpStep_pending_same ops st c d lines hc.1 hc.2.1 hc.2.2 h)
    simpa using this

theorem foldl_helpStep_stored (ops : OpMethods) (d : String) (lines : List String)
    (hlines : lines ≠ []) (cmds : List commandMap) :
    ∀ st : HelpState,
    (∀ c ∈ cmds, ops.IsInternal c.operation = false ∧ ops.Describe c.operation c.opts ≠ d) →
    HelpState.Pending d lines st ∨ HelpState.Stored d lines st →
    HelpState.Pending d lines (cmds.foldl (helpStep ops) st) ∨
      HelpState.Stored d lines (cmds.foldl (helpStep ops) st) := by
  induction cmds with
  | nil => intro st _ h; exact h
  | cons c rest ih =>
    intro st hall h
    have hc := hall c (List.mem_cons_self _ _)
    exact ih _ (fun c' hc' => hall c' (List.mem_cons_of_mem _ hc'))
      (Or.inr (helpStep_stored ops st c d lines hlines hc.1 hc.2 h))


theorem filter_eq_singleton_of_nodup (d : String) : ∀ l : List String, l.Nodup → d ∈ l →
    l.filter (fun k => decide (k = d)) = [d] := by
  intro l
  induction l with
  | nil => intro _ h; simp at h
  | cons a rest ih =>
    intro hn hm
    rw [List.nodup_cons] at hn
    by_cases ha : a = d
    · subst ha
      have : rest.filter (fun k => decide (k = a)) = [] := by
        rw [List.filter_eq_nil_iff]
        intro x hx
        simp only [decide_eq_true_eq]
        exact fun e => hn.1 (e ▸ hx)
      simp [List.filter, this]
    · have hm' : d ∈ rest := by
        rcases List.mem_cons.mp hm with h | h
        · exact absurd h.symm ha
        · exact h
      simp [List.filter, ha, ih hn.2 hm']

/-- The bucket of a key of the map: the sorted buckets hold it exactly once, with the lines
the map has for it. -/
theorem buckets_filter_key (m : HelpMap) (d : String) (hn : (m.map Prod.fst).Nodup)
    (hd : d ∈ m.map Prod.fst) :
    ((sortStrings (m.map Prod.fst)).map (fun k => (k, HelpMap.get m k))).filter
      (fun b => decide (b.1 = d)) = [(d, HelpMap.get m d)] := by
  have hperm : List.Perm (sortStrings (m.map Prod.fst)) (m.map Prod.fst) :=
    List.perm_insertionSort _ _
  rw [List.filter_map]
  have : (fun b : String × List String => decide (b.1 = d)) ∘ (fun k => (k, HelpMap.get m k)) =
      fun k => decide (k = d) := rfl
  rw [this, filter_eq_singleton_of_nodup d _ (hperm.nodup_iff.mpr hn) (hperm.mem_iff.mpr hd)]
  rfl

/-- The map of `GetCommandList` for a table whose user-facing entries with description `d` are
one block of consecutive non-override entries. -/
theorem helpMap_block (ops : OpMethods) (cmds pre block post : List commandMap) (d : String)
    (hsplit : cmds.filter (fun c => !ops.IsInternal c.operation) = pre ++ block ++ post)
    (hne : block ≠ [])
    (hb : ∀ c ∈ block, overrides c.operation = none ∧ ops.Describe c.operation c.opts = d)
    (hpre : ∀ c ∈ pre, ops.Describe c.operation c.opts ≠ d)
    (hpost : ∀ c ∈ post, ops.Describe c.operation c.opts ≠ d) :
    d ∈ (helpMap ops cmds).map Prod.fst ∧
    HelpMap.get (helpMap ops cmds) d = block.map (usageLine ops) ∧
    ((helpMap ops cmds).map Prod.fst).Nodup := by
  have huser : ∀ c ∈ pre ++ block ++ post, ops.IsInternal c.operation = false := by
    intro c hc
    rw [← hsplit, List.mem_filter] at hc
    simpa using hc.2
  have hlines : block.map (usageLine ops) ≠ [] := by
    simpa using hne
  have h0 : HelpState.Pending d [] { list := [], lastDesc := "", l := [] } :=
    ⟨by simp, by simp, fun _ => rfl, fun _ => rfl⟩
  have h1 := foldl_helpStep_pending_other ops d pre _
    (fun c hc => ⟨huser c (by simp [hc]), hpre c hc⟩) h0
  have h2 := foldl_helpStep_pending_same ops d block _ _
    (fun c hc => ⟨huser c (by simp [hc]), (hb c hc).1, (hb c hc).2⟩) h1
  rw [List.nil_append] at h2
  have h3 := foldl_helpStep_stored ops d _ hlines post _
    (fun c hc => ⟨huser c (by simp [hc]), hpost c hc⟩) (Or.inl h2)
  rw [← List.foldl_append, ← List.foldl_append, ← List.append_assoc, ← hsplit,
    ← foldl_helpStep_filter] at h3
  unfold helpMap
  generalize cmds.foldl (helpStep ops) { list := [], lastDesc := "", l := [] } = st at h3
  simp only
  rcases h3 with ⟨hk, hn, hl, hl'⟩ | ⟨hmem, hget, hn, hl⟩
  · have hlast : st.lastDesc = d := by
      by_contra hcon
      exact hlines (hl' hcon)
    have hl2 := hl hlast
    have hpos : st.l.length > 0 := by
      rw [hl2]
      exact List.length_pos.mpr hlines
    rw [if_pos hpos, hlast, hl2]
    exact ⟨(HelpMap.keys_set _ _ _ _).mpr (Or.inr rfl), HelpMap.get_set_self _ _ _,
      HelpMap.nodup_set _ _ _ hn⟩
  · obtain ⟨h1', h2'⟩ := stored_store st.list st.lastDesc d st.l _ hmem hget hl
    exact ⟨h1', h2', nodup_store _ _ _ hn⟩


theorem foldl_usage_data (os : List String) : ∀ acc : String,
    (os.foldl (fun ret o => ret ++ "        " ++ o ++ "\n") acc).data =
      acc.data ++ os.flatMap (fun o => "        ".data ++ o.data ++ ['\n']) := by
  induction os with
  | nil => intro acc; simp
  | cons o rest ih =>
    intro acc
    rw [List.foldl_cons, ih]
    simp only [String.data_append, List.flatMap_cons, List.append_assoc]

/-- The text of `GetCommandList` is the concatenation of the texts of the sorted buckets. -/
theorem renderBuckets_data (bs : List (String × List String)) :
    (renderBuckets bs).data = bs.flatMap bucketText := by
  have key : ∀ (bs : List (String × List String)) (acc : String),
      (bs.foldl (fun ret b =>
        b.2.foldl (fun ret o => ret ++ "        " ++ o ++ "\n") (ret ++ "  " ++ b.1 ++ "\n"))
        acc).data = acc.data ++ bs.flatMap bucketText := by
    intro bs
    induction bs with
    | nil => intro acc; simp
    | cons b rest ih =>
      intro acc
      rw [List.foldl_cons, ih, foldl_usage_data]
      simp only [String.data_append, List.flatMap_cons, List.append_assoc, bucketText]
      rfl
  have := key bs ""
  simpa [renderBuckets] using this

theorem bucketText_in_render (bs : List (String × List String)) (b : String × List String)
    (hb : b ∈ bs) : bucketText b <:+: (renderBuckets bs).data := by
  rw [renderBuckets_data]
  obtain ⟨a, c, rfl⟩ := List.append_of_mem hb
  refine ⟨a.flatMap bucketText, c.flatMap bucketText, ?_⟩
  simp [List.flatMap_append]

/-- C10, as the code has it: when the user-facing entries with description `d` are non-override
entries that follow one another among the user-facing entries of the table, the sorted buckets
of `GetCommandList` hold the heading `d` exactly once, with the usage lines of these entries
in table order, and the text contains this heading followed by these lines. -/
theorem GetCommandList_groups_consecutive (ops : OpMethods)
    (cmds pre block post : List commandMap) (d : String)
    (hsplit : cmds.filter (fun c => !ops.IsInternal c.operation) = pre ++ block ++ post)
    (hne : block ≠ [])
    (hb : ∀ c ∈ block, overrides c.operation = none ∧ ops.Describe c.operation c.opts = d)
    (hpre : ∀ c ∈ pre, ops.Describe c.operation c.opts ≠ d)
    (hpost : ∀ c ∈ post, ops.Describe c.operation c.opts ≠ d) :
    (helpBuckets ops cmds).filter (fun b => decide (b.1 = d)) =
      [(d, block.map (usageLine ops))] ∧
    bucketText (d, block.map (usageLine ops)) <:+: (GetCommandListOf ops cmds).data := by
  obtain ⟨hmem, hget, hn⟩ := helpMap_block ops cmds pre block post d hsplit hne hb hpre hpost
  have hf : (helpBuckets ops cmds).filter (fun b => decide (b.1 = d)) =
      [(d, block.map (usageLine ops))] := by
    unfold helpBuckets
    simp only
    rw [buckets_filter_key _ d hn hmem, hget]
  refine ⟨hf, bucketText_in_render _ _ ?_⟩
  have : (d, block.map (usageLine ops)) ∈
      (helpBuckets ops cmds).filter (fun b => decide (b.1 = d)) := by
    rw [hf]
    exact List.mem_singleton_self _
  exact (List.mem_filter.mp this).1

/-- Instance of C10: two adjacent entries described "Copy" share one heading. -/
theorem GetCommandList_groups_consecutive_witness :
    (helpBuckets groupingOps adjacentTable).filter (fun b => decide (b.1 = "Copy")) =
      [("Copy", [⟨"cp", .Copy, [S3Obj, S3ObjOrDir], []⟩,
        ⟨"cp", .Upload, [FileObj, S3ObjOrDir], []⟩].map (usageLine groupingOps))] ∧
    bucketText ("Copy", [⟨"cp", .Copy, [S3Obj, S3ObjOrDir], []⟩,
        ⟨"cp", .Upload, [FileObj, S3ObjOrDir], []⟩].map (usageLine groupingOps)) <:+:
      (GetCommandListOf groupingOps adjacentTable).data :=
  GetCommandList_groups_consecutive groupingOps adjacentTable []
    [⟨"cp", .Copy, [S3Obj, S3ObjOrDir], []⟩, ⟨"cp", .Upload, [FileObj, S3ObjOrDir], []⟩]
    [⟨"rm", .Delete, [S3Obj], []⟩] "Copy" (by decide) (by decide) (by decide) (by decide)
    (by decide)

/-- Counterexample to C10 as stated: with an entry of another description between two entries
described "Copy", the heading "Copy" keeps only the line of the later entry; the line of the
earlier one is nowhere in the text. -/
theorem GetCommandList_split_group_lost :
    groupingOps.Describe .Copy [] = groupingOps.Describe .Upload [] ∧
    helpBuckets groupingOps splitTable =
      [("Copy", ["cp filename s3://bucket[/object[/]]"]),
       ("Delete", ["rm s3://bucket[/object]"])] ∧
    GetCommandListOf groupingOps splitTable =
      "  Copy\n        cp filename s3://bucket[/object[/]]\n  Delete\n        rm s3://bucket[/object]\n" ∧
    usageLine groupingOps ⟨"cp", .Copy, [S3Obj, S3ObjOrDir], []⟩ =
      "cp s3://bucket[/object] s3://bucket[/object[/]]" ∧
    ¬ (usageLine groupingOps ⟨"cp", .Copy, [S3Obj, S3ObjOrDir], []⟩).data <:+:
      (GetCommandListOf groupingOps splitTable).data := by
  refine ⟨rfl, by decide, by decide, by decide, by decide⟩


/-! ### The collapse of `[-rr] [-ia]` in usage lines -/

/-- A space-free word followed by a space, at the front of a space-free token followed by
nothing or by a space: the word is the token. -/
theorem token_align (A t X s : List Char) (hA : ' ' ∉ A) (ht : ' ' ∉ t)
    (hs : s = [] ∨ ∃ s', s = ' ' :: s') (h : A ++ ' ' :: X <+: t ++ s) :
    t = A ∧ ' ' :: X <+: s := by
  obtain ⟨q, hq⟩ := h
  rw [List.append_assoc] at hq
  rcases List.append_eq_append_iff.mp hq with ⟨a', h1, h2⟩ | ⟨c', h1, h2⟩
  · cases a' with
    | nil =>
      simp only [List.append_nil, List.nil_append] at h1 h2
      exact ⟨h1, ⟨q, by rw [← h2]⟩⟩
    | cons x a'' =>
      simp only [List.cons_append, List.cons.injEq] at h2
      exact absurd (by rw [h1, ← h2.1]; simp) ht
  · cases c' with
    | nil =>
      simp only [List.append_nil, List.nil_append] at h1 h2
      exact ⟨h1.symm, ⟨q, by rw [h2]⟩⟩
    | cons x c'' =>
      rcases hs with hs | ⟨s', hs⟩
      · rw [hs] at h2
        simp at h2
      · rw [hs] at h2
        simp only [List.cons_append, List.cons.injEq] at h2
        exact absurd (by rw [h1, ← h2.1]; simp) hA

/-- A text without the character `c` that occurs in `X ++ c :: Y` occurs in `X` or in `Y`. -/
theorem infix_split_at (c : Char) (P X Y : List Char) (hP : c ∉ P)
    (h : P <:+: X ++ c :: Y) : P <:+: X ∨ P <:+: Y := by
  obtain ⟨p, q, hq⟩ := h
  rw [List.append_assoc] at hq
  rcases List.append_eq_append_iff.mp hq with ⟨a', h1, h2⟩ | ⟨c', h1, h2⟩
  · -- X = p ++ a', P ++ q = a' ++ c :: Y
    rcases List.append_eq_append_iff.mp h2 with ⟨a2, h3, h4⟩ | ⟨c2, h3, h4⟩
    · -- a' = P ++ a2
      left
      exact ⟨p, a2, by rw [h1, h3, List.append_assoc]⟩
    · -- P = a' ++ c2, c :: Y = c2 ++ q
      cases c2 with
      | nil =>
        left
        simp only [List.append_nil] at h3
        exact ⟨p, [], by rw [h1, h3, List.append_nil]⟩
      | cons x c3 =>
        simp only [List.cons_append, List.cons.injEq] at h4
        exact absurd (by rw [h3, h4.1]; simp) hP
  · -- p = X ++ c', c :: Y = c' ++ (P ++ q)
    cases c' with
    | nil =>
      simp only [List.nil_append] at h2
      cases P with
      | nil => exact Or.inl List.nil_infix
      | cons x P' =>
        simp only [List.cons_append, List.cons.injEq] at h2
        exact absurd (by rw [h2.1]; simp) hP
    | cons x c3 =>
      right
      simp only [List.cons_append, List.cons.injEq] at h2
      exact ⟨c3, q, by rw [h2.2, List.append_assoc]⟩


/-- An occurrence of `A`, a space, `B` in a space-free token followed by a space and `Y` is
either at the junction, `A` ending the token and `B` starting `Y`, or lies in `Y`. -/
theorem pair_infix_split (A B u Y : List Char) (hA : ' ' ∉ A) (hu : ' ' ∉ u)
    (h : A ++ ' ' :: B <:+: u ++ ' ' :: Y) :
    (A <:+ u ∧ B <+: Y) ∨ A ++ ' ' :: B <:+: Y := by
  obtain ⟨p, q, hq⟩ := h
  have hq' : (p ++ A) ++ (' ' :: (B ++ q)) = u ++ ' ' :: Y := by
    rw [← hq]
    simp [List.append_assoc]
  rcases List.append_eq_append_iff.mp hq' with ⟨a', h1, h2⟩ | ⟨c', h1, h2⟩
  · -- u = (p ++ A) ++ a', ' ' :: (B ++ q) = a' ++ ' ' :: Y
    cases a' with
    | nil =>
      simp only [List.append_nil, List.nil_append, List.cons.injEq, true_and] at h1 h2
      exact Or.inl ⟨⟨p, h1.symm⟩, ⟨q, h2⟩⟩
    | cons x a'' =>
      simp only [List.cons_append, List.cons.injEq] at h2
      exact absurd (by rw [h1, ← h2.1]; simp) hu
  · -- p ++ A = u ++ c', ' ' :: Y = c' ++ ' ' :: (B ++ q)
    cases c' with
    | nil =>
      simp only [List.append_nil, List.nil_append, List.cons.injEq, true_and] at h1 h2
      exact Or.inl ⟨⟨p, h1⟩, ⟨q, h2.symm⟩⟩
    | cons x c'' =>
      simp only [List.cons_append, List.cons.injEq] at h2
      obtain ⟨hx, hY⟩ := h2
      subst hx
      rcases List.append_eq_append_iff.mp h1 with ⟨a2, h3, h4⟩ | ⟨c2, h3, h4⟩
      · -- u = p ++ a2, A = a2 ++ ' ' :: c''
        exact absurd (by rw [h4]; simp) hA
      · -- p = u ++ c2, ' ' :: c'' = c2 ++ A
        cases c2 with
        | nil =>
          simp only [List.nil_append] at h4
          exact absurd (by rw [← h4]; simp) hA
        | cons y c3 =>
          simp only [List.cons_append, List.cons.injEq] at h4
          right
          refine ⟨c3, q, ?_⟩
          rw [hY, h4.2]
          simp [List.append_assoc]

/-- The text ` [-rr] [-ia] ` that `GetCommandList` replaces. -/
theorem collapse_old_data : " [-rr] [-ia] ".data = ' ' :: rrTok ++ ' ' :: iaTok ++ [' '] := rfl

/-- The text ` [-rr|-ia] ` that replaces it. -/
theorem collapse_new_data : " [-rr|-ia] ".data = ' ' :: mergedTok ++ [' '] := rfl

theorem collapse_cons_ne (c : Char) (s : List Char) (hc : c ≠ ' ') :
    replaceGo " [-rr] [-ia] ".data " [-rr|-ia] ".data 0 (c :: s) =
      c :: replaceGo " [-rr] [-ia] ".data " [-rr|-ia] ".data 0 s := by
  have h : List.isPrefixOf " [-rr] [-ia] ".data (c :: s) = false := by
    have hc' : (' ' == c) = false := by simpa using fun e : ' ' = c => hc e.symm
    show List.isPrefixOf (' ' :: _) (c :: s) = false
    simp [List.isPrefixOf, hc']
  simp [replaceGo, h]

theorem collapse_token (t s : List Char) (ht : ' ' ∉ t) :
    replaceGo " [-rr] [-ia] ".data " [-rr|-ia] ".data 0 (t ++ s) =
      t ++ replaceGo " [-rr] [-ia] ".data " [-rr|-ia] ".data 0 s := by
  induction t with
  | nil => rfl
  | cons c t' ih =>
    have hc : c ≠ ' ' := fun e => ht (e ▸ List.mem_cons_self _ _)
    rw [List.cons_append, collapse_cons_ne _ _ hc, ih (fun h => ht (List.mem_cons_of_mem _ h))]
    rfl

theorem collapse_no_match (t s : List Char) (ht : ' ' ∉ t)
    (h : ¬ rrTok ++ ' ' :: (iaTok ++ [' ']) <+: t ++ s) :
    replaceGo " [-rr] [-ia] ".data " [-rr|-ia] ".data 0 (' ' :: t ++ s) =
      ' ' :: t ++ replaceGo " [-rr] [-ia] ".data " [-rr|-ia] ".data 0 s := by
  have hp : List.isPrefixOf " [-rr] [-ia] ".data (' ' :: (t ++ s)) = false := by
    rw [Bool.eq_false_iff]
    intro hpre
    rw [List.isPrefixOf_iff_prefix, collapse_old_data] at hpre
    simp only [List.cons_append, List.cons_prefix_cons, true_and] at hpre
    exact h (by simpa [List.append_assoc] using hpre)
  rw [List.cons_append]
  simp only [replaceGo, hp]
  rw [collapse_token t s ht]
  rfl

theorem collapse_match (X : List Char) :
    replaceGo " [-rr] [-ia] ".data " [-rr|-ia] ".data 0
        (' ' :: rrTok ++ ' ' :: iaTok ++ ' ' :: X) =
      ' ' :: mergedTok ++ ' ' :: replaceGo " [-rr] [-ia] ".data " [-rr|-ia] ".data 0 X := by
  have hp : List.isPrefixOf " [-rr] [-ia] ".data
      (' ' :: '[' :: '-' :: 'r' :: 'r' :: ']' :: ' ' :: '[' :: '-' :: 'i' :: 'a' :: ']' :: ' ' :: X)
        = true := by
    rw [List.isPrefixOf_iff_prefix]
    exact ⟨X, rfl⟩
  show replaceGo _ _ 0
    (' ' :: '[' :: '-' :: 'r' :: 'r' :: ']' :: ' ' :: '[' :: '-' :: 'i' :: 'a' :: ']' :: ' ' :: X)
      = _
  rw [replaceGo, if_pos hp]
  show " [-rr|-ia] ".data ++ replaceGo _ _ 12 _ = _
  simp only [replaceGo]
  rfl


theorem spJoin_nil : spJoin [] = [] := rfl

theorem spJoin_cons (t : List Char) (ts : List (List Char)) :
    spJoin (t :: ts) = ' ' :: t ++ spJoin ts := rfl

theorem spJoin_append (ts us : List (List Char)) : spJoin (ts ++ us) = spJoin ts ++ spJoin us := by
  simp [spJoin, List.flatMap_append]

theorem spJoin_nil_or_space (ts : List (List Char)) :
    spJoin ts = [] ∨ ∃ s', spJoin ts = ' ' :: s' := by
  cases ts with
  | nil => exact Or.inl rfl
  | cons t rest => exact Or.inr ⟨t ++ spJoin rest, rfl⟩

theorem rrTok_no_space : ' ' ∉ rrTok := by decide

theorem iaTok_no_space : ' ' ∉ iaTok := by decide

theorem mergedTok_no_space : ' ' ∉ mergedTok := by decide

/-- The replaced text starts at a token only when the token is `[-rr]` and is followed by
`[-ia]` and a further token. -/
theorem no_match_at_token (a : List Char) (rest : List (List Char)) (ha : ' ' ∉ a)
    (hrest : ∀ t ∈ rest, ' ' ∉ t)
    (hno : ¬ ∃ c rest', a = rrTok ∧ rest = iaTok :: c :: rest') :
    ¬ rrTok ++ ' ' :: (iaTok ++ [' ']) <+: a ++ spJoin rest := by
  intro h
  obtain ⟨ha', h2⟩ := token_align rrTok a (iaTok ++ [' ']) (spJoin rest) rrTok_no_space ha
    (spJoin_nil_or_space rest) h
  cases rest with
  | nil => simp [spJoin_nil] at h2
  | cons b rest2 =>
    rw [spJoin_cons, List.cons_append, List.cons_prefix_cons] at h2
    obtain ⟨hb, h3⟩ := token_align iaTok b [] (spJoin rest2) iaTok_no_space
      (hrest b (List.mem_cons_self _ _)) (spJoin_nil_or_space rest2) h2.2
    cases rest2 with
    | nil => simp [spJoin_nil] at h3
    | cons c rest3 => exact hno ⟨c, rest3, ha', by rw [hb]⟩

/-- On a usage line, the replacement of ` [-rr] [-ia] ` acts on the tokens as `collapseTok`. -/
theorem collapse_spJoin : ∀ ts : List (List Char), (∀ t ∈ ts, ' ' ∉ t) →
    replaceGo " [-rr] [-ia] ".data " [-rr|-ia] ".data 0 (spJoin ts) =
      spJoin (collapseTok ts) := by
  intro ts
  induction ts using collapseTok.induct with
  | case1 a b c rest hab ih =>
    intro hts
    obtain ⟨ha, hb⟩ := hab
    subst ha hb
    have hc : ' ' ∉ c := hts c (by simp)
    have hrest : ∀ t ∈ rest, ' ' ∉ t := fun t ht => hts t (by simp [ht])
    rw [collapseTok.eq_1, if_pos ⟨rfl, rfl⟩]
    simp only [spJoin_cons]
    have e : ' ' :: rrTok ++ (' ' :: iaTok ++ (' ' :: c ++ spJoin rest)) =
        ' ' :: rrTok ++ ' ' :: iaTok ++ ' ' :: (c ++ spJoin rest) := by
      simp [List.append_assoc]
    rw [e, collapse_match, collapse_token c _ hc, ih hrest]
    simp [List.append_assoc]
  | case2 a b c rest hab ih =>
    intro hts
    have ha : ' ' ∉ a := hts a (by simp)
    have hrest : ∀ t ∈ b :: c :: rest, ' ' ∉ t := fun t ht => hts t (List.mem_cons_of_mem _ ht)
    rw [collapseTok.eq_1, if_neg hab, spJoin_cons a (b :: c :: rest),
      spJoin_cons a (collapseTok (b :: c :: rest))]
    have hno : ¬ ∃ c' rest', a = rrTok ∧ b :: c :: rest = iaTok :: c' :: rest' := by
      rintro ⟨c', rest', h1, h2⟩
      simp only [List.cons.injEq] at h2
      exact hab ⟨h1, h2.1⟩
    rw [collapse_no_match a _ ha (no_match_at_token a _ ha hrest hno), ih hrest]
  | case3 ts hts3 =>
    intro hts
    rw [collapseTok.eq_2 ts hts3]
    match ts, hts3, hts with
    | [], _, _ => rfl
    | [a], _, hts =>
      have ha : ' ' ∉ a := hts a (by simp)
      rw [spJoin_cons, collapse_no_match a _ ha
        (no_match_at_token a [] ha (by simp) (by simp))]
      rfl
    | [a, b], _, hts =>
      have ha : ' ' ∉ a := hts a (by simp)
      have hb : ' ' ∉ b := hts b (by simp)
      rw [spJoin_cons, collapse_no_match a _ ha
        (no_match_at_token a [b] ha (by simpa using hb) (by simp)),
        spJoin_cons, collapse_no_match b _ hb
        (no_match_at_token b [] hb (by simp) (by simp))]
      rfl
    | a :: b :: c :: rest, h3, _ => exact absurd rfl (h3 a b c rest)


theorem prefix_of_prefix_token (B t s : List Char) (hB : ' ' ∉ B)
    (hs : s = [] ∨ ∃ s', s = ' ' :: s') (h : B <+: t ++ s) : B <+: t := by
  obtain ⟨q, hq⟩ := h
  rcases List.append_eq_append_iff.mp hq with ⟨a', h1, _⟩ | ⟨c', h1, h2⟩
  · exact ⟨a', h1.symm⟩
  · cases c' with
    | nil =>
      simp only [List.append_nil] at h1
      exact ⟨[], by rw [h1, List.append_nil]⟩
    | cons x c'' =>
      rcases hs with hs | ⟨s', hs⟩
      · rw [hs] at h2
        simp at h2
      · rw [hs] at h2
        simp only [List.cons_append, List.cons.injEq] at h2
        exact absurd (by rw [h1, ← h2.1]; simp) hB

/-- A keyword followed by space-free tokens contains `A`, a space, `B` only where a token
ending in `A` is followed by a token starting with `B`. -/
theorem pair_not_infix_tokens (A B : List Char) (hA : ' ' ∉ A) (hB : ' ' ∉ B) :
    ∀ (ts : List (List Char)) (t0 : List Char), ' ' ∉ t0 → (∀ t ∈ ts, ' ' ∉ t) →
    List.Chain' (fun u v => ¬ (A <:+ u ∧ B <+: v)) (t0 :: ts) →
    ¬ A ++ ' ' :: B <:+: t0 ++ spJoin ts := by
  intro ts
  induction ts with
  | nil =>
    intro t0 h0 _ _ hin
    rw [spJoin_nil, List.append_nil] at hin
    exact h0 (hin.subset (by simp))
  | cons t1 rest ih =>
    intro t0 h0 hts hch hin
    rw [spJoin_cons, List.cons_append] at hin
    rw [List.chain'_cons] at hch
    rcases pair_infix_split A B t0 _ hA h0 hin with ⟨h1, h2⟩ | h1
    · exact hch.1 ⟨h1, prefix_of_prefix_token B t1 _ hB (spJoin_nil_or_space rest) h2⟩
    · exact ih t1 (hts t1 (List.mem_cons_self _ _))
        (fun t ht => hts t (List.mem_cons_of_mem _ ht)) hch.2 h1

theorem collapseTok_of_not_mem : ∀ ts : List (List Char), rrTok ∉ ts → collapseTok ts = ts := by
  intro ts
  induction ts using collapseTok.induct with
  | case1 a b c rest hab ih =>
    intro h
    exact absurd (by simp [hab.1]) h
  | case2 a b c rest hab ih =>
    intro h
    rw [collapseTok.eq_1, if_neg hab, ih (fun h' => h (List.mem_cons_of_mem _ h'))]
  | case3 ts hts3 =>
    intro _
    exact collapseTok.eq_2 ts hts3

theorem collapseTok_head (ts : List (List Char)) :
    (collapseTok ts).head? = ts.head? ∨ (collapseTok ts).head? = some mergedTok := by
  match ts with
  | a :: b :: c :: rest =>
    rw [collapseTok.eq_1]
    by_cases hab : a = rrTok ∧ b = iaTok
    · rw [if_pos hab]
      exact Or.inr rfl
    · rw [if_neg hab]
      exact Or.inl rfl
  | [] => exact Or.inl rfl
  | [a] => exact Or.inl rfl
  | [a, b] => exact Or.inl rfl

theorem mem_collapseTok : ∀ (ts : List (List Char)) (t : List Char),
    t ∈ collapseTok ts → t ∈ ts ∨ t = mergedTok := by
  intro ts
  induction ts using collapseTok.induct with
  | case1 a b c rest hab ih =>
    intro t ht
    rw [collapseTok.eq_1, if_pos hab] at ht
    simp only [List.mem_cons] at ht ⊢
    rcases ht with h | h | h
    · exact Or.inr h
    · exact Or.inl (Or.inr (Or.inr (Or.inl h)))
    · rcases ih t h with h | h
      · exact Or.inl (Or.inr (Or.inr (Or.inr h)))
      · exact Or.inr h
  | case2 a b c rest hab ih =>
    intro t ht
    rw [collapseTok.eq_1, if_neg hab] at ht
    rcases List.mem_cons.mp ht with h | h
    · exact Or.inl (h ▸ List.mem_cons_self _ _)
    · rcases ih t h with h | h
      · exact Or.inl (List.mem_cons_of_mem _ h)
      · exact Or.inr h
  | case3 ts hts3 =>
    intro t ht
    rw [collapseTok.eq_2 ts hts3] at ht
    exact Or.inl ht

theorem chain_of_left (r : List Char → List Char → Prop) :
    ∀ ts : List (List Char), (∀ u ∈ ts, ∀ v, r u v) → List.Chain' r ts := by
  intro ts
  induction ts with
  | nil => intro _; exact List.chain'_nil
  | cons a rest ih =>
    intro h
    exact (ih (fun u hu => h u (List.mem_cons_of_mem _ hu))).cons'
      (fun y _ => h a (List.mem_cons_self _ _) y)


/-- After the collapse no token `[-rr]` is followed by a token `[-ia]`, when the tokens do not
contain the pair twice in a row and do not end with the pair. -/
theorem collapseTok_chain : ∀ ts : List (List Char),
    (∀ t ∈ ts, (rrTok <:+ t → t = rrTok) ∧ (iaTok <+: t → t = iaTok)) →
    ¬ [rrTok, iaTok, rrTok, iaTok] <:+: ts → ¬ [rrTok, iaTok] <:+ ts →
    List.Chain' (fun u v => ¬ (rrTok <:+ u ∧ iaTok <+: v)) (collapseTok ts) := by
  intro ts
  induction ts using collapseTok.induct with
  | case1 a b c rest hab ih =>
    intro hg hfour hsuf
    obtain ⟨ha, hb⟩ := hab
    subst ha hb
    rw [collapseTok.eq_1, if_pos ⟨rfl, rfl⟩]
    have hsufrest : rest <:+ rrTok :: iaTok :: c :: rest :=
      ⟨[rrTok, iaTok, c], rfl⟩
    have hch := ih (fun t ht => hg t (hsufrest.subset ht))
      (fun h => hfour (h.trans hsufrest.isInfix))
      (fun h => hsuf (h.trans hsufrest))
    have hc : List.Chain' (fun u v => ¬ (rrTok <:+ u ∧ iaTok <+: v)) (c :: collapseTok rest) := by
      refine hch.cons' ?_
      intro y hy hcy
      rcases collapseTok_head rest with h | h
      · rw [h] at hy
        cases rest with
        | nil => simp at hy
        | cons y' rest' =>
          simp only [List.head?_cons, Option.mem_def, Option.some.injEq] at hy
          subst hy
          have h1 : c = rrTok := (hg c (by simp)).1 hcy.1
          have h2 : y' = iaTok := (hg y' (by simp)).2 hcy.2
          subst h1 h2
          exact hfour ⟨[], rest', rfl⟩
      · rw [h] at hy
        simp only [Option.mem_def, Option.some.injEq] at hy
        subst hy
        exact absurd hcy.2 (by decide)
    refine hc.cons' ?_
    intro y _ hy
    exact absurd hy.1 (by decide)
  | case2 a b c rest hab ih =>
    intro hg hfour hsuf
    rw [collapseTok.eq_1, if_neg hab]
    have hch := ih (fun t ht => hg t (List.mem_cons_of_mem _ ht))
      (fun h => hfour (h.trans (List.suffix_cons _ _).isInfix))
      (fun h => hsuf (h.trans (List.suffix_cons _ _)))
    refine hch.cons' ?_
    intro y hy hay
    rcases collapseTok_head (b :: c :: rest) with h | h
    · rw [h] at hy
      simp only [List.head?_cons, Option.mem_def, Option.some.injEq] at hy
      subst hy
      exact hab ⟨(hg a (List.mem_cons_self _ _)).1 hay.1, (hg b (by simp)).2 hay.2⟩
    · rw [h] at hy
      simp only [Option.mem_def, Option.some.injEq] at hy
      subst hy
      exact absurd hay.2 (by decide)
  | case3 ts hts3 =>
    intro hg _ hsuf
    rw [collapseTok.eq_2 ts hts3]
    match ts, hts3, hg, hsuf with
    | [], _, _, _ => exact List.chain'_nil
    | [a], _, _, _ => exact List.chain'_singleton a
    | [a, b], _, hg, hsuf =>
      rw [List.chain'_cons]
      refine ⟨fun hab => hsuf ?_, List.chain'_singleton b⟩
      rw [(hg a (by simp)).1 hab.1, (hg b (by simp)).2 hab.2]
    | a :: b :: c :: rest, h3, _, _ => exact absurd rfl (h3 a b c rest)

/-- A token that is not `[-rr]`, followed by at least two tokens, is kept by the collapse. -/
theorem collapseTok_cons_ne (x : List Char) (ts : List (List Char)) (hx : x ≠ rrTok)
    (hlen : 2 ≤ ts.length) : collapseTok (x :: ts) = x :: collapseTok ts := by
  match ts, hlen with
  | y :: z :: r, _ =>
    rw [collapseTok.eq_1, if_neg (fun h => hx h.1)]

/-- The first pair `[-rr]`, `[-ia]` that is followed by a token is merged into `[-rr|-ia]`. -/
theorem collapseTok_first_pair (c : List Char) (rest : List (List Char)) :
    ∀ A : List (List Char), rrTok ∉ A →
      collapseTok (A ++ rrTok :: iaTok :: c :: rest) = A ++ mergedTok :: c :: collapseTok rest := by
  intro A
  induction A with
  | nil =>
    intro _
    rw [List.nil_append, collapseTok.eq_1, if_pos ⟨rfl, rfl⟩]
    rfl
  | cons x A' ih =>
    intro hA
    have hx : x ≠ rrTok := fun h => hA (h ▸ List.mem_cons_self _ _)
    rw [List.cons_append, collapseTok_cons_ne x _ hx (by simp; omega),
      ih (fun h => hA (List.mem_cons_of_mem _ h))]
    rfl

/-- A text that occurs in `X ++ Y` and has no element of `Y` occurs in `X`. -/
theorem infix_left_of_not_mem {α : Type} (t X Y : List α) (hne : t ≠ [])
    (hY : ∀ x ∈ t, x ∉ Y) (h : t <:+: X ++ Y) : t <:+: X := by
  obtain ⟨p, q, hq⟩ := h
  rw [List.append_assoc] at hq
  rcases List.append_eq_append_iff.mp hq with ⟨a', h1, h2⟩ | ⟨c', _, h2⟩
  · rcases List.append_eq_append_iff.mp h2 with ⟨a2, h3, _⟩ | ⟨c2, h3, h4⟩
    · exact ⟨p, a2, by rw [h1, h3, List.append_assoc]⟩
    · cases c2 with
      | nil =>
        simp only [List.append_nil] at h3
        exact ⟨p, [], by rw [h1, h3, List.append_nil]⟩
      | cons x c3 =>
        exact absurd (by rw [h4]; simp) (hY x (by rw [h3]; simp))
  · cases t with
    | nil => exact absurd rfl hne
    | cons x t' =>
      exact absurd (by rw [h2]; simp) (hY x (List.mem_cons_self _ _))

/-- The flag tokens: the eight texts `optTok` can give. -/
theorem optTok_mem (o : OptionType) :
    optTok o ∈ ["[-n]".data, "[--parents]".data, "[-rr]".data, "[-ia]".data, "[-R]".data,
      "[-e]".data, "[-h]".data, "[]".data] := by
  unfold optTok OptionType.GetParam
  split_ifs <;> decide

theorem optTok_eq_rrTok (o : OptionType) : optTok o = rrTok ↔ o = RR := by
  constructor
  · unfold optTok OptionType.GetParam
    split_ifs with h1 h2 h3 h4 h5 h6 h7 <;> intro h <;> first | exact h3 | exact absurd h (by decide)
  · rintro rfl
    decide

theorem optTok_eq_iaTok (o : OptionType) : optTok o = iaTok ↔ o = IA := by
  constructor
  · unfold optTok OptionType.GetParam
    split_ifs with h1 h2 h3 h4 h5 h6 h7 <;> intro h <;> first | exact h4 | exact absurd h (by decide)
  · rintro rfl
    decide

theorem optTok_good (o : OptionType) :
    ' ' ∉ optTok o ∧ (rrTok <:+ optTok o → optTok o = rrTok) ∧
      (iaTok <+: optTok o → optTok o = iaTok) := by
  have key : ∀ t ∈ ["[-n]".data, "[--parents]".data, "[-rr]".data, "[-ia]".data, "[-R]".data,
      "[-e]".data, "[-h]".data, "[]".data],
      ' ' ∉ t ∧ (rrTok <:+ t → t = rrTok) ∧ (iaTok <+: t → t = iaTok) := by decide
  exact key _ (optTok_mem o)

/-- The labels: the eleven texts `ParamType.String` can give. -/
theorem label_mem (p : ParamType) :
    (ParamType.String p).data ∈ ["param".data, "param...".data, "s3://bucket[/object]".data,
      "s3://bucket[/object]/".data, "s3://bucket[/object[/]]".data,
      "s3://bucket/wild/*/obj*".data, "filename".data, "directory".data,
      "file-or-directory".data, "glob-pattern*".data, "unknown".data] := by
  unfold ParamType.String
  split_ifs <;> decide

theorem label_good (p : ParamType) :
    ' ' ∉ (ParamType.String p).data ∧ ¬ rrTok <:+ (ParamType.String p).data ∧
      ¬ iaTok <+: (ParamType.String p).data ∧ (ParamType.String p).data ≠ iaTok := by
  have key : ∀ t ∈ ["param".data, "param...".data, "s3://bucket[/object]".data,
      "s3://bucket[/object]/".data, "s3://bucket[/object[/]]".data,
      "s3://bucket/wild/*/obj*".data, "filename".data, "directory".data,
      "file-or-directory".data, "glob-pattern*".data, "unknown".data],
      ' ' ∉ t ∧ ¬ rrTok <:+ t ∧ ¬ iaTok <+: t ∧ t ≠ iaTok := by decide
  exact key _ (label_mem p)

theorem keyword_good : ∀ c ∈ commands, ' ' ∉ c.keyword.data ∧ ¬ rrTok <:+ c.keyword.data := by
  decide

theorem lineTokens_good (ops : OpMethods) (c : commandMap) : ∀ t ∈ lineTokens ops c,
    ' ' ∉ t ∧ (rrTok <:+ t → t = rrTok) ∧ (iaTok <+: t → t = iaTok) := by
  intro t ht
  rcases List.mem_append.mp ht with h | h
  · obtain ⟨o, -, rfl⟩ := List.mem_map.mp h
    exact optTok_good o
  · obtain ⟨p, -, rfl⟩ := List.mem_map.mp h
    have := label_good p
    exact ⟨this.1, fun h' => absurd h' this.2.1, fun h' => absurd h' this.2.2.1⟩

theorem count_optTok_rrTok (os : OptionList) : (os.map optTok).count rrTok = os.count RR := by
  induction os with
  | nil => rfl
  | cons o rest ih =>
    rw [List.map_cons, List.count_cons, List.count_cons, ih]
    by_cases h : o = RR
    · simp [h, (optTok_eq_rrTok RR).mpr rfl]
    · have h' : optTok o ≠ rrTok := fun e => h ((optTok_eq_rrTok o).mp e)
      simp [h, h']

theorem count_label_rrTok (ps : List ParamType) :
    (ps.map (fun p => (ParamType.String p).data)).count rrTok = 0 := by
  rw [List.count_eq_zero]
  intro h
  obtain ⟨p, -, hp⟩ := List.mem_map.mp h
  exact (label_good p).2.1 (hp ▸ List.suffix_refl _)


theorem foldl_opts_data (os : OptionList) : ∀ s0 : String,
    (os.foldl (fun s p => s ++ " [" ++ OptionType.GetParam p ++ "]") s0).data =
      s0.data ++ spJoin (os.map optTok) := by
  induction os with
  | nil => intro s0; simp [spJoin_nil]
  | cons o rest ih =>
    intro s0
    rw [List.foldl_cons, ih, List.map_cons, spJoin_cons]
    simp [String.data_append, List.append_assoc, optTok]

theorem foldl_params_data (ps : List ParamType) : ∀ s0 : String,
    (ps.foldl (fun s pt => s ++ " " ++ ParamType.String pt) s0).data =
      s0.data ++ spJoin (ps.map (fun p => (ParamType.String p).data)) := by
  induction ps with
  | nil => intro s0; simp [spJoin_nil]
  | cons p rest ih =>
    intro s0
    rw [List.foldl_cons, ih, List.map_cons, spJoin_cons]
    simp only [String.data_append, List.append_assoc]
    rfl

/-- The usage line of an entry: the keyword and the tokens, with the replacement applied. -/
theorem usageLine_data (ops : OpMethods) (c : commandMap) :
    (usageLine ops c).data =
      replaceGo " [-rr] [-ia] ".data " [-rr|-ia] ".data 0
        (c.keyword.data ++ spJoin (lineTokens ops c)) := by
  have e : ∀ s : String, stringsReplaceAll s " [-rr] [-ia] " " [-rr|-ia] " =
      ⟨replaceGo " [-rr] [-ia] ".data " [-rr|-ia] ".data 0 s.data⟩ := fun s => rfl
  unfold usageLine
  simp only [e, foldl_params_data, foldl_opts_data, lineTokens, spJoin_append, List.append_assoc]

/-- The usage line after the replacement: the keyword and the collapsed tokens. -/
theorem usageLine_tokens (ops : OpMethods) (c : commandMap) (hkw : ' ' ∉ c.keyword.data) :
    (usageLine ops c).data = c.keyword.data ++ spJoin (collapseTok (lineTokens ops c)) := by
  rw [usageLine_data, collapse_token _ _ hkw,
    collapse_spJoin _ (fun t ht => (lineTokens_good ops c t ht).1)]

theorem lineTokens_not_suffix (ops : OpMethods) (c : commandMap)
    (hend : c.params = [] → ¬ [RR, IA] <:+ ops.GetAcceptedOpts c.operation) :
    ¬ [rrTok, iaTok] <:+ lineTokens ops c := by
  intro hsuf
  by_cases hp : c.params = []
  · apply hend hp
    obtain ⟨pre, hpre⟩ := hsuf
    simp only [lineTokens, hp, List.map_nil, List.append_nil] at hpre
    obtain ⟨l₁, l₂, hl, -, h₂⟩ := List.map_eq_append_iff.mp hpre.symm
    match l₂, h₂ with
    | [], h₂ => simp at h₂
    | [_], h₂ => simp at h₂
    | _ :: _ :: _ :: _, h₂ => simp at h₂
    | [o₁, o₂], h₂ =>
      simp only [List.map_cons, List.map_nil, List.cons.injEq, and_true] at h₂
      rw [(optTok_eq_rrTok o₁).mp h₂.1, (optTok_eq_iaTok o₂).mp h₂.2] at hl
      exact ⟨l₁, hl.symm⟩
  · have hne : c.params.map (fun p => (ParamType.String p).data) ≠ [] := by
      simpa using hp
    have hlast : (lineTokens ops c).getLast? = some iaTok := by
      obtain ⟨pre, hpre⟩ := hsuf
      rw [← hpre]
      simp
    unfold lineTokens at hlast
    rw [List.getLast?_append_of_ne_nil _ hne] at hlast
    have hmem := List.mem_of_getLast?_eq_some hlast
    obtain ⟨p, -, hp'⟩ := List.mem_map.mp hmem
    exact (label_good p).2.2.2 hp'

theorem lineTokens_no_double_pair (ops : OpMethods) (c : commandMap)
    (hfour : ¬ [RR, IA, RR, IA] <:+: ops.GetAcceptedOpts c.operation) :
    ¬ [rrTok, iaTok, rrTok, iaTok] <:+: lineTokens ops c := by
  intro hin
  unfold lineTokens at hin
  have hleft := infix_left_of_not_mem _ _ _ (by simp) (fun x hx hmem => by
    obtain ⟨p, -, hp⟩ := List.mem_map.mp hmem
    have hg := label_good p
    simp only [List.mem_cons, List.mem_singleton, List.not_mem_nil, or_false] at hx
    rcases hx with hx | hx | hx | hx
    · exact hg.2.1 (by rw [hp, hx])
    · exact hg.2.2.2 (hp.trans hx)
    · exact hg.2.1 (by rw [hp, hx])
    · exact hg.2.2.2 (hp.trans hx)) hin
  obtain ⟨t, ht, hmap⟩ := infix_map_exists _ _ _ hleft
  match t, hmap with
  | [], hmap => simp at hmap
  | [_], hmap => simp at hmap
  | [_, _], hmap => simp at hmap
  | [_, _, _], hmap => simp at hmap
  | _ :: _ :: _ :: _ :: _ :: _, hmap => simp at hmap
  | [o₁, o₂, o₃, o₄], hmap =>
    simp only [List.map_cons, List.map_nil, List.cons.injEq, and_true] at hmap
    rw [(optTok_eq_rrTok o₁).mp hmap.1, (optTok_eq_iaTok o₂).mp hmap.2.1,
      (optTok_eq_rrTok o₃).mp hmap.2.2.1, (optTok_eq_iaTok o₄).mp hmap.2.2.2] at ht
    exact hfour ht

/-- The usage line of an entry does not contain `[-rr] [-ia]` when the accepted options do not
contain `-rr`, `-ia` twice in a row and, for an entry without required shapes, do not end with
`-rr`, `-ia`. -/
theorem usageLine_no_pair (ops : OpMethods) (c : commandMap)
    (hkw : ' ' ∉ c.keyword.data ∧ ¬ rrTok <:+ c.keyword.data)
    (hfour : ¬ [RR, IA, RR, IA] <:+: ops.GetAcceptedOpts c.operation)
    (hend : c.params = [] → ¬ [RR, IA] <:+ ops.GetAcceptedOpts c.operation) :
    ¬ "[-rr] [-ia]".data <:+: (usageLine ops c).data := by
  rw [usageLine_tokens ops c hkw.1]
  have hch := collapseTok_chain (lineTokens ops c)
    (fun t ht => (lineTokens_good ops c t ht).2) (lineTokens_no_double_pair ops c hfour)
    (lineTokens_not_suffix ops c hend)
  refine pair_not_infix_tokens rrTok iaTok rrTok_no_space iaTok_no_space _ _ hkw.1 ?_
    (hch.cons' (fun y _ hy => hkw.2 hy.1))
  intro t ht
  rcases mem_collapseTok _ _ ht with h | h
  · exact (lineTokens_good ops c t h).1
  · exact h ▸ mergedTok_no_space

/-- The usage line of an entry whose accepted options are `a`, `-rr`, `-ia`, `b`, with `-rr`
neither in `a` nor in `b` and a further token after the pair: the keyword, the flags of `a`,
` [-rr|-ia]`, the flags of `b` and the labels of the required shapes. -/
theorem usageLine_first_pair (ops : OpMethods) (c : commandMap) (a b : OptionList)
    (hkw : ' ' ∉ c.keyword.data)
    (hao : ops.GetAcceptedOpts c.operation = a ++ RR :: IA :: b)
    (ha : RR ∉ a) (hb : RR ∉ b) (hnext : b ≠ [] ∨ c.params ≠ []) :
    (usageLine ops c).data = c.keyword.data ++ spJoin (a.map optTok) ++ " [-rr|-ia]".data ++
      spJoin (b.map optTok ++ c.params.map (fun p => (ParamType.String p).data)) := by
  have hA : rrTok ∉ a.map optTok := by
    intro h
    obtain ⟨o, ho, ho'⟩ := List.mem_map.mp h
    exact ha (((optTok_eq_rrTok o).mp ho') ▸ ho)
  have hB : rrTok ∉ b.map optTok ++ c.params.map (fun p => (ParamType.String p).data) := by
    intro h
    rcases List.mem_append.mp h with h | h
    · obtain ⟨o, ho, ho'⟩ := List.mem_map.mp h
      exact hb (((optTok_eq_rrTok o).mp ho') ▸ ho)
    · obtain ⟨p, -, hp⟩ := List.mem_map.mp h
      exact (label_good p).2.1 (hp ▸ List.suffix_refl _)
  have htoks : lineTokens ops c = a.map optTok ++ rrTok :: iaTok ::
      (b.map optTok ++ c.params.map (fun p => (ParamType.String p).data)) := by
    unfold lineTokens
    rw [hao, List.map_append, List.map_cons, List.map_cons, (optTok_eq_rrTok RR).mpr rfl,
      (optTok_eq_iaTok IA).mpr rfl]
    simp [List.append_assoc]
  have hne : b.map optTok ++ c.params.map (fun p => (ParamType.String p).data) ≠ [] := by
    rcases hnext with h | h
    · simp [h]
    · simp [h]
  rw [usageLine_tokens ops c hkw, htoks]
  generalize b.map optTok ++ c.params.map (fun p => (ParamType.String p).data) = tail at hB hne
  cases tail with
  | nil => exact absurd rfl hne
  | cons t rest =>
    rw [collapseTok_first_pair t rest _ hA,
      collapseTok_of_not_mem rest (fun h => hB (List.mem_cons_of_mem _ h)), spJoin_append,
      spJoin_cons mergedTok]
    simp only [List.append_assoc]
    rfl


theorem HelpMap.mem_set (m : HelpMap) (k : String) (v : List String)
    (kv : String × List String) (h : kv ∈ HelpMap.set m k v) : kv ∈ m ∨ kv = (k, v) := by
  induction m with
  | nil =>
    simp only [HelpMap.set, List.mem_singleton] at h
    exact Or.inr h
  | cons kv' rest ih =>
    obtain ⟨k', v'⟩ := kv'
    by_cases hk : k' = k
    · simp only [HelpMap.set, hk, if_true, List.mem_cons] at h
      rcases h with h | h
      · exact Or.inr h
      · exact Or.inl (List.mem_cons_of_mem _ h)
    · simp only [HelpMap.set, hk, if_false, List.mem_cons] at h
      rcases h with h | h
      · exact Or.inl (h ▸ List.mem_cons_self _ _)
      · rcases ih h with h | h
        · exact Or.inl (List.mem_cons_of_mem _ h)
        · exact Or.inr h

theorem HelpMap.get_mem (m : HelpMap) (k line : String) (h : line ∈ HelpMap.get m k) :
    ∃ kv ∈ m, kv.1 = k ∧ line ∈ kv.2 := by
  induction m with
  | nil => simp [HelpMap.get] at h
  | cons kv' rest ih =>
    obtain ⟨k', v'⟩ := kv'
    by_cases hk : k' = k
    · simp only [HelpMap.get, hk, if_true] at h
      exact ⟨(k', v'), List.mem_cons_self _ _, hk, h⟩
    · simp only [HelpMap.get, hk, if_false] at h
      obtain ⟨kv, h1, h2⟩ := ih h
      exact ⟨kv, List.mem_cons_of_mem _ h1, h2⟩

/-- Every key of the map of `GetCommandList` is the description of a user-facing entry, and
every line is the usage line of a user-facing non-override entry or an override text; stated
for properties `K` of descriptions and `Q` of lines. -/
theorem helpMap_lines (ops : OpMethods) (cmds : List commandMap) (K Q : String → Prop)
    (hK : ∀ c ∈ cmds, K (ops.Describe c.operation c.opts))
    (hQ : ∀ c ∈ cmds, overrides c.operation = none → Q (usageLine ops c))
    (hO : ∀ o s, overrides o = some s → Q s) :
    ∀ kv ∈ helpMap ops cmds, K kv.1 ∧ ∀ line ∈ kv.2, Q line := by
  have hstore : ∀ (m : HelpMap) (k : String) (l : List String),
      (∀ kv ∈ m, K kv.1 ∧ ∀ line ∈ kv.2, Q line) → (∀ line ∈ l, Q line) → (l ≠ [] → K k) →
      ∀ kv ∈ (if l.length > 0 then HelpMap.set m k l else m), K kv.1 ∧ ∀ line ∈ kv.2, Q line := by
    intro m k l hm hl hk kv hkv
    by_cases hpos : l.length > 0
    · rw [if_pos hpos] at hkv
      rcases HelpMap.mem_set _ _ _ _ hkv with h | h
      · exact hm kv h
      · subst h
        exact ⟨hk (List.ne_nil_of_length_pos hpos), hl⟩
    · rw [if_neg hpos] at hkv
      exact hm kv hkv
  have hstep : ∀ (st : HelpState) (c : commandMap), c ∈ cmds →
      ((∀ kv ∈ st.list, K kv.1 ∧ ∀ line ∈ kv.2, Q line) ∧ (∀ line ∈ st.l, Q line) ∧
        (st.l ≠ [] → K st.lastDesc)) →
      ((∀ kv ∈ (helpStep ops st c).list, K kv.1 ∧ ∀ line ∈ kv.2, Q line) ∧
        (∀ line ∈ (helpStep ops st c).l, Q line) ∧
        ((helpStep ops st c).l ≠ [] → K (helpStep ops st c).lastDesc)) := by
    intro st c hc ⟨h1, h2, h3⟩
    by_cases hint : ops.IsInternal c.operation = true
    · simp only [helpStep, hint, if_true]
      exact ⟨h1, h2, h3⟩
    · simp only [Bool.not_eq_true] at hint
      rw [helpStep_user ops st c hint]
      cases ho : overrides c.operation with
      | some o =>
        refine ⟨?_, fun line hl => absurd hl (by simp), fun h => absurd rfl h⟩
        intro kv hkv
        rcases HelpMap.mem_set _ _ _ _ hkv with h | h
        · by_cases he : st.lastDesc = ops.Describe c.operation c.opts
          · simp only [ne_eq, he, not_true_eq_false, if_false] at h
            exact h1 kv h
          · simp only [ne_eq, he, not_false_eq_true, if_true] at h
            exact hstore _ _ _ h1 h2 h3 kv h
        · subst h
          refine ⟨hK c hc, fun line hl => ?_⟩
          rw [List.mem_singleton] at hl
          exact hl ▸ hO _ _ ho
      | none =>
        have hu := hQ c hc ho
        by_cases he : st.lastDesc = ops.Describe c.operation c.opts
        · simp only [ne_eq, he, not_true_eq_false, if_false]
          refine ⟨h1, fun line hl => ?_, fun _ => hK c hc⟩
          rcases List.mem_append.mp hl with hl | hl
          · exact h2 line hl
          · rw [List.mem_singleton] at hl
            exact hl ▸ hu
        · simp only [ne_eq, he, not_false_eq_true, if_true]
          refine ⟨hstore _ _ _ h1 h2 h3, fun line hl => ?_, fun _ => hK c hc⟩
          rw [List.mem_singleton] at hl
          exact hl ▸ hu
  have hfold : ∀ (cs : List commandMap) (st : HelpState), (∀ c ∈ cs, c ∈ cmds) →
      ((∀ kv ∈ st.list, K kv.1 ∧ ∀ line ∈ kv.2, Q line) ∧ (∀ line ∈ st.l, Q line) ∧
        (st.l ≠ [] → K st.lastDesc)) →
      ((∀ kv ∈ (cs.foldl (helpStep ops) st).list, K kv.1 ∧ ∀ line ∈ kv.2, Q line) ∧
        (∀ line ∈ (cs.foldl (helpStep ops) st).l, Q line) ∧
        ((cs.foldl (helpStep ops) st).l ≠ [] → K (cs.foldl (helpStep ops) st).lastDesc)) := by
    intro cs
    induction cs with
    | nil => intro st _ h; exact h
    | cons c rest ih =>
      intro st hsub h
      exact ih _ (fun c' hc' => hsub c' (List.mem_cons_of_mem _ hc'))
        (hstep st c (hsub c (List.mem_cons_self _ _)) h)
  obtain ⟨h1, h2, h3⟩ := hfold cmds { list := [], lastDesc := "", l := [] } (fun _ h => h)
    ⟨by simp, by simp, by simp⟩
  exact hstore _ _ _ h1 h2 h3

theorem helpBuckets_lines (ops : OpMethods) (cmds : List commandMap) (K Q : String → Prop)
    (hK : ∀ c ∈ cmds, K (ops.Describe c.operation c.opts))
    (hQ : ∀ c ∈ cmds, overrides c.operation = none → Q (usageLine ops c))
    (hO : ∀ o s, overrides o = some s → Q s) :
    ∀ b ∈ helpBuckets ops cmds, K b.1 ∧ ∀ line ∈ b.2, Q line := by
  intro b hb
  have hm := helpMap_lines ops cmds K Q hK hQ hO
  unfold helpBuckets at hb
  simp only [List.mem_map] at hb
  obtain ⟨k, hk, rfl⟩ := hb
  have hk' : k ∈ (helpMap ops cmds).map Prod.fst :=
    (List.perm_insertionSort _ _).mem_iff.mp hk
  obtain ⟨kv, hkv, rfl⟩ := List.mem_map.mp hk'
  refine ⟨(hm kv hkv).1, fun line hl => ?_⟩
  obtain ⟨kv', hkv', -, hl'⟩ := HelpMap.get_mem _ _ _ hl
  exact (hm kv' hkv').2 line hl'


/-- A text without newline that occurs in a sequence of newline-terminated lines occurs in one
of the lines. -/
theorem infix_in_some_line (P : List Char) (hnl : '\n' ∉ P) (hne : P ≠ []) :
    ∀ ls : List (List Char), P <:+: ls.flatMap (fun l => l ++ ['\n']) →
      ∃ l ∈ ls, P <:+: l := by
  intro ls
  induction ls with
  | nil =>
    intro h
    exact absurd (List.eq_nil_of_infix_nil h) hne
  | cons l rest ih =>
    intro h
    rw [List.flatMap_cons, List.append_assoc] at h
    rcases infix_split_at '\n' P l _ hnl h with h | h
    · exact ⟨l, List.mem_cons_self _ _, h⟩
    · obtain ⟨l', hl', h'⟩ := ih h
      exact ⟨l', List.mem_cons_of_mem _ hl', h'⟩

theorem bucketText_lines (b : String × List String) :
    bucketText b = (("  ".data ++ b.1.data) :: b.2.map (fun o => "        ".data ++ o.data)).flatMap
      (fun l => l ++ ['\n']) := by
  unfold bucketText
  rw [List.flatMap_cons, List.flatMap_map]
  simp [List.append_assoc]

theorem infix_strip_space (P' X : List Char) (h : '[' :: P' <:+: ' ' :: X) :
    '[' :: P' <:+: X := by
  rcases List.infix_cons_iff.mp h with h | h
  · rw [List.cons_prefix_cons] at h
    exact absurd h.1 (by decide)
  · exact h

theorem params_nil_of_commands : ∀ c ∈ commands, overrides c.operation = none →
    c.params = [] → c.operation = .ListBuckets := by
  decide

theorem overrides_no_pair (o : Operation) (s : String) (h : overrides o = some s) :
    ¬ "[-rr] [-ia]".data <:+: s.data := by
  cases o <;> simp only [overrides, Option.some.injEq] at h <;> first | exact absurd h (by simp) | (subst h; decide)

/-- Counterexample to C9 as stated: when the bucket listing accepts `-rr` and `-ia`, its usage
line is `ls [-rr] [-ia]`, without a space after `[-ia]`, and the help text contains
`[-rr] [-ia]`. -/
theorem GetCommandList_pair_at_line_end :
    usageLine pairAtEndOps ⟨"ls", .ListBuckets, [], []⟩ = "ls [-rr] [-ia]" ∧
    "[-rr] [-ia]".data <:+: (GetCommandList pairAtEndOps).data := by
  refine ⟨by decide, ?_⟩
  have h1 : ("List buckets", ["ls [-rr] [-ia]"]) ∈ helpBuckets pairAtEndOps commands := by
    decide
  have h2 : "[-rr] [-ia]".data <:+: bucketText ("List buckets", ["ls [-rr] [-ia]"]) := by
    decide
  exact h2.trans (bucketText_in_render _ _ h1)


/-! ### Theorems on the option and parameter texts -/

theorem intercalate_go_data (s : String) : ∀ (l : List String) (acc : String),
    (String.intercalate.go acc s l).data = acc.data ++ l.flatMap (fun a => s.data ++ a.data) := by
  intro l
  induction l with
  | nil => intro acc; simp [String.intercalate.go]
  | cons a rest ih =>
    intro acc
    simp [String.intercalate.go, ih, String.data_append, List.append_assoc]

/-- The non-empty flags of an option list, joined by single spaces and preceded by one. -/
theorem GetParams_data (l : OptionList) :
    (OptionList.GetParams l).data =
      ((l.map OptionType.GetParam).filter (fun p => p ≠ "")).flatMap (fun f => ' ' :: f.data) := by
  unfold OptionList.GetParams
  simp only
  generalize hr : (l.map OptionType.GetParam).filter (fun p => p ≠ "") = r
  cases r with
  | nil => simp [String.intercalate]
  | cons a rest =>
    have ha : a ≠ "" := by
      have hmem : a ∈ (l.map OptionType.GetParam).filter (fun p => p ≠ "") := by
        rw [hr]
        exact List.mem_cons_self _ _
      simpa using (List.mem_filter.mp hmem).2
    have hj : " ".intercalate (a :: rest) ≠ "" := by
      intro h
      have hd := congrArg String.data h
      simp only [String.intercalate, intercalate_go_data] at hd
      have : a.data = [] := (List.append_eq_nil.mp hd).1
      exact ha (String.ext this)
    rw [if_pos hj]
    simp [String.intercalate, intercalate_go_data, String.data_append]

/-- C14: `GetParams` is the empty text when no option of the list has a non-empty flag, and
otherwise a space followed by the non-empty flags, in the order of the list, separated by
single spaces. -/
theorem GetParams_renders_flags :
    (∀ l : OptionList, (l.map OptionType.GetParam).filter (fun p => p ≠ "") = [] →
      OptionList.GetParams l = "") ∧
    (∀ l : OptionList, (l.map OptionType.GetParam).filter (fun p => p ≠ "") ≠ [] →
      OptionList.GetParams l =
        " " ++ " ".intercalate ((l.map OptionType.GetParam).filter (fun p => p ≠ ""))) ∧
    (∀ l : OptionList, (OptionList.GetParams l).data =
      ((l.map OptionType.GetParam).filter (fun p => p ≠ "")).flatMap (fun f => ' ' :: f.data)) ∧
    OptionList.GetParams [DeleteSource] = "" ∧
    OptionList.GetParams [] = "" ∧
    OptionList.GetParams [DeleteSource, IfNotExists, RR] = " -n -rr" := by
  refine ⟨fun l h => ?_, fun l h => ?_, GetParams_data, by decide, by decide, by decide⟩
  · apply String.ext
    rw [GetParams_data, h]
    rfl
  · apply String.ext
    rw [GetParams_data, String.data_append]
    generalize (l.map OptionType.GetParam).filter (fun p => p ≠ "") = r at h
    cases r with
    | nil => exact absurd rfl h
    | cons a rest => simp [String.intercalate, intercalate_go_data]


/-- C15: `GetOptionList` is seven lines, each ended by a newline, for the flags `-n`,
`--parents`, `-R`, `-rr`, `-ia`, `-e`, `-h` in this order; each line is two spaces, the flag
padded with spaces on the right to width 10, a space and the help message of the option. -/
theorem GetOptionList_lines :
    GetOptionList = String.join (optionsHelpOrder.map (fun o =>
      "  " ++ padRight10 (OptionType.GetParam o) ++ " " ++ OptionType.HelpMessage o ++ "\n")) ∧
    optionsHelpOrder.map OptionType.GetParam = ["-n", "--parents", "-R", "-rr", "-ia", "-e", "-h"] ∧
    optionsHelpOrder ≠ [IfNotExists, Parents, RR, IA, Recursive, ListETags, HumanReadable] ∧
    (∀ o ∈ optionsHelpOrder,
      (padRight10 (OptionType.GetParam o)).data =
        (OptionType.GetParam o).data ++
          List.replicate (10 - (OptionType.GetParam o).data.length) ' ' ∧
      (padRight10 (OptionType.GetParam o)).data.length = 10 ∧
      '\n' ∉ (OptionType.HelpMessage o).data) ∧
    GetOptionList.data.count '\n' = 7 ∧
    GetOptionList =
      "  -n         Do not overwrite existing files/objects (no-clobber)\n" ++
      "  --parents  Create directory structure in destination, starting from the first wildcard\n" ++
      "  -R         Recursive operation\n" ++
      "  -rr        Store with Reduced-Redundancy mode\n" ++
      "  -ia        Store with Infrequent-Access mode\n" ++
      "  -e         Show ETags in listing\n" ++
      "  -h         Human-readable output for file sizes\n" := by
  refine ⟨by decide, by decide, by decide, by decide, by decide, by decide⟩

/-- C16: `ParamType.String` gives a text for every integer; the text is "unknown" exactly for
the integers that are none of the ten declared shapes, and the declared shapes have their
canonical labels. -/
theorem ParamType_String_total :
    (∀ p : Int, ParamType.String p = "unknown" ↔ (p < 0 ∨ p > 9)) ∧
    ParamType.String Unchecked = "param" ∧
    ParamType.String UncheckedOneOrMore = "param..." ∧
    ParamType.String S3Obj = "s3://bucket[/object]" ∧
    ParamType.String S3Dir = "s3://bucket[/object]/" ∧
    ParamType.String S3ObjOrDir = "s3://bucket[/object[/]]" ∧
    ParamType.String S3WildObj = "s3://bucket/wild/*/obj*" ∧
    ParamType.String FileObj = "filename" ∧
    ParamType.String Dir = "directory" ∧
    ParamType.String FileOrDir = "file-or-directory" ∧
    ParamType.String Glob = "glob-pattern*" := by
  refine ⟨fun p => ?_, by decide, by decide, by decide, by decide, by decide, by decide,
    by decide, by decide, by decide, by decide⟩
  by_cases hr : 0 ≤ p ∧ p ≤ 9
  · obtain ⟨h0, h9⟩ := hr
    interval_cases p <;> decide
  · have hout : p < 0 ∨ p > 9 := by omega
    refine ⟨fun _ => hout, fun _ => ?_⟩
    unfold ParamType.String Unchecked UncheckedOneOrMore S3Obj S3Dir S3ObjOrDir S3WildObj
      FileObj Dir FileOrDir Glob
    have h0 : ¬ p = 0 := by omega
    have h1 : ¬ p = 1 := by omega
    have h2 : ¬ p = 2 := by omega
    have h3 : ¬ p = 3 := by omega
    have h4 : ¬ p = 4 := by omega
    have h5 : ¬ p = 5 := by omega
    have h6 : ¬ p = 6 := by omega
    have h7 : ¬ p = 7 := by omega
    have h8 : ¬ p = 8 := by omega
    have h9 : ¬ p = 9 := by omega
    rw [if_neg h0, if_neg h1, if_neg h2, if_neg h3, if_neg h4, if_neg h5, if_neg h6, if_neg h7,
      if_neg h8, if_neg h9]


/-- C17: the code `IsRetryableError` returns is empty exactly when the verdict is "not
retryable". -/
theorem IsRetryableError_code_iff_verdict (err : GoError) :
    (IsRetryableError err).1 = "" ↔ (IsRetryableError err).2 = false := by
  cases err with
  | nil => exact ⟨fun _ => rfl, fun _ => rfl⟩
  | plain msg => exact ⟨fun _ => rfl, fun _ => rfl⟩
  | acceptable inner => exact ⟨fun _ => rfl, fun _ => rfl⟩
  | awsErr code msg =>
    rw [IsRetryableError_awsErr]
    split_ifs with h
    · refine ⟨fun hc => ?_, fun hf => absurd hf (by simp)⟩
      rcases h with h | h <;> rw [h] at hc <;> exact absurd hc (by decide)
    · exact ⟨fun _ => rfl, fun _ => rfl⟩
  | requestFailure code msg status =>
    rw [IsRetryableError_requestFailure]
    split_ifs with h h2 h3
    · refine ⟨fun hc => ?_, fun hf => absurd hf (by simp)⟩
      rcases h with h | h <;> rw [h] at hc <;> exact absurd hc (by decide)
    · refine ⟨fun hc => ?_, fun hf => absurd hf (by simp)⟩
      rcases h2 with h2 | h2 <;> rw [h2] at hc <;> exact absurd hc (by decide)
    · refine ⟨fun hc => ?_, fun hf => absurd hf (by simp)⟩
      rcases h3 with h3 | h3 <;> rw [h3] at hc <;> exact absurd hc (by decide)
    · exact ⟨fun _ => rfl, fun _ => rfl⟩

/-- C18: the entries with keyword "mv" are, position by position, the entries with keyword "cp"
(same operation, same required shapes); the default options of every "mv" entry are
`[DeleteSource]` and those of every other entry are empty. -/
theorem commands_mv_is_cp_with_DeleteSource :
    (commands.filter (fun c => c.keyword = "mv")).length =
      (commands.filter (fun c => c.keyword = "cp")).length ∧
    (commands.filter (fun c => c.keyword = "mv")).map (fun c => (c.operation, c.params)) =
      (commands.filter (fun c => c.keyword = "cp")).map (fun c => (c.operation, c.params)) ∧
    (∀ c ∈ commands, c.keyword = "mv" → c.opts = [DeleteSource]) ∧
    (∀ c ∈ commands, c.keyword ≠ "mv" → c.opts = []) := by
  refine ⟨by decide, by decide, by decide, by decide⟩

theorem GetParam_ne_empty_iff (o : Int) : OptionType.GetParam o ≠ "" ↔ (2 ≤ o ∧ o ≤ 8) := by
  by_cases hr : 2 ≤ o ∧ o ≤ 8
  · obtain ⟨h2, h8⟩ := hr
    interval_cases o <;> decide
  · refine ⟨fun h => absurd ?_ h, fun h => absurd h hr⟩
    have h2 : ¬ o = 2 := by omega
    have h3 : ¬ o = 3 := by omega
    have h4 : ¬ o = 4 := by omega
    have h5 : ¬ o = 5 := by omega
    have h6 : ¬ o = 6 := by omega
    have h7 : ¬ o = 7 := by omega
    have h8 : ¬ o = 8 := by omega
    unfold OptionType.GetParam IfNotExists Parents RR IA Recursive ListETags HumanReadable
    rw [if_neg h2, if_neg h3, if_neg h4, if_neg h5, if_neg h6, if_neg h7, if_neg h8]

theorem HelpMessage_ne_empty_iff (o : Int) :
    OptionType.HelpMessage o ≠ "" ↔ (2 ≤ o ∧ o ≤ 8) := by
  by_cases hr : 2 ≤ o ∧ o ≤ 8
  · obtain ⟨h2, h8⟩ := hr
    interval_cases o <;> decide
  · refine ⟨fun h => absurd ?_ h, fun h => absurd h hr⟩
    have h2 : ¬ o = 2 := by omega
    have h3 : ¬ o = 3 := by omega
    have h4 : ¬ o = 4 := by omega
    have h5 : ¬ o = 5 := by omega
    have h6 : ¬ o = 6 := by omega
    have h7 : ¬ o = 7 := by omega
    have h8 : ¬ o = 8 := by omega
    unfold OptionType.HelpMessage IfNotExists Parents RR IA Recursive ListETags HumanReadable
    rw [if_neg h2, if_neg h3, if_neg h6, if_neg h4, if_neg h5, if_neg h7, if_neg h8]

theorem mem_optionsHelpOrder_iff (o : Int) : o ∈ optionsHelpOrder ↔ (2 ≤ o ∧ o ≤ 8) := by
  unfold optionsHelpOrder IfNotExists Parents RR IA Recursive ListETags HumanReadable
  simp only [List.mem_cons, List.mem_singleton, List.not_mem_nil, or_false]
  omega

/-- C19: for every option value the flag is empty exactly when the help message is empty, and
`optionsHelpOrder` lists, each once, exactly the options with a non-empty flag; `DeleteSource`,
which has no flag, is not listed. -/
theorem option_texts_consistent :
    (∀ o : Int, OptionType.GetParam o = "" ↔ OptionType.HelpMessage o = "") ∧
    optionsHelpOrder.Nodup ∧
    (∀ o : Int, o ∈ optionsHelpOrder ↔ OptionType.GetParam o ≠ "") ∧
    OptionType.GetParam DeleteSource = "" ∧ DeleteSource ∉ optionsHelpOrder := by
  refine ⟨fun o => ?_, by decide, fun o => ?_, by decide, by decide⟩
  · rw [← not_iff_not]
    exact (GetParam_ne_empty_iff o).trans (HelpMessage_ne_empty_iff o).symm
  · exact (mem_optionsHelpOrder_iff o).trans (GetParam_ne_empty_iff o).symm

/-- C20: two different declared shapes never have the same label and none has the label
"unknown"; two different options with a non-empty flag never have the same flag. -/
theorem display_texts_injective :
    (∀ p q : Int, 0 ≤ p → p ≤ 9 → 0 ≤ q → q ≤ 9 →
      ParamType.String p = ParamType.String q → p = q) ∧
    (∀ p : Int, 0 ≤ p → p ≤ 9 → ParamType.String p ≠ "unknown") ∧
    (∀ o o' : Int, OptionType.GetParam o ≠ "" →
      OptionType.GetParam o = OptionType.GetParam o' → o = o') := by
  refine ⟨fun p q hp0 hp9 hq0 hq9 => ?_, fun p hp0 hp9 => ?_, fun o o' hne heq => ?_⟩
  · interval_cases p <;> interval_cases q <;> decide
  · interval_cases p <;> decide
  · have ho := (GetParam_ne_empty_iff o).mp hne
    have ho' := (GetParam_ne_empty_iff o').mp (heq ▸ hne)
    obtain ⟨h2, h8⟩ := ho
    obtain ⟨h2', h8'⟩ := ho'
    revert heq
    interval_cases o <;> interval_cases o' <;> decide


/-! ### Internal entries, override entries and the order of the help text -/

theorem helpMap_filter (ops : OpMethods) (cmds : List commandMap) :
    helpMap ops cmds = helpMap ops (cmds.filter (fun c => !ops.IsInternal c.operation)) := by
  unfold helpMap
  simp only [← foldl_helpStep_filter ops cmds]

/-- C12: the text of `GetCommandList` for a table is the text for the table without its
internal entries; a table of internal entries only, and the empty table, give the empty text. -/
theorem GetCommandList_skips_internal :
    (∀ (ops : OpMethods) (cmds : List commandMap), GetCommandListOf ops cmds =
      GetCommandListOf ops (cmds.filter (fun c => !ops.IsInternal c.operation))) ∧
    (∀ (ops : OpMethods) (cmds : List commandMap),
      (∀ c ∈ cmds, ops.IsInternal c.operation = true) → GetCommandListOf ops cmds = "") ∧
    (∀ ops : OpMethods, GetCommandListOf ops [] = "") := by
  have h1 : ∀ (ops : OpMethods) (cmds : List commandMap), GetCommandListOf ops cmds =
      GetCommandListOf ops (cmds.filter (fun c => !ops.IsInternal c.operation)) := by
    intro ops cmds
    unfold GetCommandListOf helpBuckets
    rw [← helpMap_filter]
  refine ⟨h1, fun ops cmds hall => ?_, fun ops => rfl⟩
  have hnil : cmds.filter (fun c => !ops.IsInternal c.operation) = [] := by
    rw [List.filter_eq_nil_iff]
    intro c hc
    simp [hall c hc]
  rw [h1, hnil]
  rfl

/-- The keys of the map stay distinct through the loop. -/
theorem helpStep_nodup (ops : OpMethods) (st : HelpState) (c : commandMap)
    (hn : (st.list.map Prod.fst).Nodup) : ((helpStep ops st c).list.map Prod.fst).Nodup := by
  by_cases hint : ops.IsInternal c.operation = true
  · simp only [helpStep, hint, if_true]
    exact hn
  · simp only [Bool.not_eq_true] at hint
    rw [helpStep_user ops st c hint]
    cases overrides c.operation with
    | some o =>
      by_cases he : st.lastDesc = ops.Describe c.operation c.opts
      · simp only [ne_eq, he, not_true_eq_false, if_false]
        exact HelpMap.nodup_set _ _ _ hn
      · simp only [ne_eq, he, not_false_eq_true, if_true]
        exact HelpMap.nodup_set _ _ _ (nodup_store _ _ _ hn)
    | none =>
      by_cases he : st.lastDesc = ops.Describe c.operation c.opts
      · simp only [ne_eq, he, not_true_eq_false, if_false]
        exact hn
      · simp only [ne_eq, he, not_false_eq_true, if_true]
        exact nodup_store _ _ _ hn

theorem foldl_helpStep_nodup (ops : OpMethods) (cmds : List commandMap) :
    ∀ st : HelpState, (st.list.map Prod.fst).Nodup →
      (((cmds.foldl (helpStep ops) st).list).map Prod.fst).Nodup := by
  induction cmds with
  | nil => intro st h; exact h
  | cons c rest ih => intro st h; exact ih _ (helpStep_nodup ops st c h)

theorem helpMap_nodup (ops : OpMethods) (cmds : List commandMap) :
    ((helpMap ops cmds).map Prod.fst).Nodup := by
  unfold helpMap
  exact nodup_store _ _ _ (foldl_helpStep_nodup ops cmds _ (by simp))

/-- A user-facing override entry stores its fixed text under its description and drops the
lines collected so far. -/
theorem helpStep_override (ops : OpMethods) (st : HelpState) (c : commandMap) (text : String)
    (hc : ops.IsInternal c.operation = false) (ho : overrides c.operation = some text)
    (hn : (st.list.map Prod.fst).Nodup) :
    HelpState.Stored (ops.Describe c.operation c.opts) [text] (helpStep ops st c) := by
  rw [helpStep_user ops st c hc, ho]
  refine ⟨(HelpMap.keys_set _ _ _ _).mpr (Or.inr rfl), HelpMap.get_set_self _ _ _, ?_,
    fun _ => rfl⟩
  by_cases he : st.lastDesc = ops.Describe c.operation c.opts
  · simp only [ne_eq, he, not_true_eq_false, if_false]
    exact HelpMap.nodup_set _ _ _ hn
  · simp only [ne_eq, he, not_false_eq_true, if_true]
    exact HelpMap.nodup_set _ _ _ (nodup_store _ _ _ hn)

theorem foldl_helpStep_override_kept (ops : OpMethods) (d text : String)
    (cmds : List commandMap) : ∀ st : HelpState,
    (∀ c ∈ cmds, ops.IsInternal c.operation = false ∧
      (ops.Describe c.operation c.opts = d → overrides c.operation = some text)) →
    HelpState.Stored d [text] st →
    HelpState.Stored d [text] (cmds.foldl (helpStep ops) st) := by
  induction cmds with
  | nil => intro st _ h; exact h
  | cons c rest ih =>
    intro st hall h
    obtain ⟨hc, hd⟩ := hall c (List.mem_cons_self _ _)
    refine ih _ (fun c' hc' => hall c' (List.mem_cons_of_mem _ hc')) ?_
    by_cases he : ops.Describe c.operation c.opts = d
    · have := helpStep_override ops st c text hc (hd he) h.2.2.1
      rwa [he] at this
    · exact helpStep_stored ops st c d [text] (by simp) hc he (Or.inr h)

/-- C11, as the code has it: when a user-facing override entry with description `d` is followed,
among the user-facing entries with description `d`, only by entries with the same override,
the sorted buckets of `GetCommandList` hold the heading `d` exactly once, with the fixed text
of the override as its only usage line, whatever entries come before. -/
theorem GetCommandList_override_replaces (ops : OpMethods)
    (cmds pre post : List commandMap) (c : commandMap) (d text : String)
    (hsplit : cmds.filter (fun c => !ops.IsInternal c.operation) = pre ++ c :: post)
    (ho : overrides c.operation = some text)
    (hd : ops.Describe c.operation c.opts = d)
    (hpost : ∀ c' ∈ post, ops.Describe c'.operation c'.opts = d →
      overrides c'.operation = some text) :
    (helpBuckets ops cmds).filter (fun b => decide (b.1 = d)) = [(d, [text])] ∧
    bucketText (d, [text]) <:+: (GetCommandListOf ops cmds).data := by
  have huser : ∀ c' ∈ pre ++ c :: post, ops.IsInternal c'.operation = false := by
    intro c' hc'
    rw [← hsplit, List.mem_filter] at hc'
    simpa using hc'.2
  have h1 := foldl_helpStep_nodup ops pre { list := [], lastDesc := "", l := [] } (by simp)
  have h2 := helpStep_override ops _ c text (huser c (by simp)) ho h1
  rw [hd] at h2
  have h3 := foldl_helpStep_override_kept ops d text post _
    (fun c' hc' => ⟨huser c' (by simp [hc']), hpost c' hc'⟩) h2
  rw [← List.foldl_cons, ← List.foldl_append, ← hsplit, ← foldl_helpStep_filter] at h3
  have hmap : d ∈ (helpMap ops cmds).map Prod.fst ∧ HelpMap.get (helpMap ops cmds) d = [text] := by
    unfold helpMap
    exact stored_store _ _ _ _ _ h3.1 h3.2.1 h3.2.2.2
  have hf : (helpBuckets ops cmds).filter (fun b => decide (b.1 = d)) = [(d, [text])] := by
    unfold helpBuckets
    simp only
    rw [buckets_filter_key _ d (helpMap_nodup ops cmds) hmap.1, hmap.2]
  refine ⟨hf, bucketText_in_render _ _ ?_⟩
  have : (d, [text]) ∈ (helpBuckets ops cmds).filter (fun b => decide (b.1 = d)) := by
    rw [hf]
    exact List.mem_singleton_self _
  exact (List.mem_filter.mp this).1

/-- Instance of C11: an override entry after an entry with the same description. -/
theorem GetCommandList_override_replaces_witness :
    (helpBuckets groupingOps overrideLastTable).filter (fun b => decide (b.1 = "Delete")) =
      [("Delete", ["exit [exit code]"])] ∧
    bucketText ("Delete", ["exit [exit code]"]) <:+:
      (GetCommandListOf groupingOps overrideLastTable).data :=
  GetCommandList_override_replaces groupingOps overrideLastTable [⟨"rm", .Delete, [S3Obj], []⟩]
    [] ⟨"exit", .Abort, [], []⟩ "Delete" "exit [exit code]" (by decide) (by decide) (by decide)
    (by decide)

/-- Counterexample to C11 as stated: an entry that follows the override entry and shares its
description takes the bucket; the fixed text "exit [exit code]" is nowhere in the help. -/
theorem GetCommandList_override_overwritten :
    groupingOps.Describe .Abort [] = groupingOps.Describe .Delete [] ∧
    helpBuckets groupingOps overrideFirstTable = [("Delete", ["rm s3://bucket[/object]"])] ∧
    GetCommandListOf groupingOps overrideFirstTable =
      "  Delete\n        rm s3://bucket[/object]\n" ∧
    ¬ "exit [exit code]".data <:+: (GetCommandListOf groupingOps overrideFirstTable).data := by
  refine ⟨rfl, by decide, by decide, by decide⟩


/-! ### Order of the buckets and of their lines -/

/-- The headings of the sorted buckets are in strictly ascending lexicographic order. -/
theorem helpBuckets_keys_sorted (ops : OpMethods) (cmds : List commandMap) :
    ((helpBuckets ops cmds).map (fun b => b.1.data)).Pairwise (fun a b => a < b) := by
  have hkeys : (helpBuckets ops cmds).map (fun b => b.1.data) =
      (sortStrings ((helpMap ops cmds).map Prod.fst)).map String.data := by
    unfold helpBuckets
    simp [List.map_map, Function.comp]
  rw [hkeys]
  haveI : IsTotal String (fun a b => a.data ≤ b.data) := ⟨fun a b => le_total a.data b.data⟩
  haveI : IsTrans String (fun a b => a.data ≤ b.data) :=
    ⟨fun a b c hab hbc => le_trans hab hbc⟩
  have hsorted : (sortStrings ((helpMap ops cmds).map Prod.fst)).Sorted
      (fun a b => a.data ≤ b.data) := List.sorted_insertionSort _ _
  have hnodup : (sortStrings ((helpMap ops cmds).map Prod.fst)).Nodup :=
    (List.perm_insertionSort _ _).nodup_iff.mpr (helpMap_nodup ops cmds)
  have hle : ((sortStrings ((helpMap ops cmds).map Prod.fst)).map String.data).Sorted
      (fun a b => a ≤ b) := List.pairwise_map.mpr hsorted
  have hnd : ((sortStrings ((helpMap ops cmds).map Prod.fst)).map String.data).Nodup :=
    hnodup.map (fun a b h => String.ext h)
  exact hle.lt_of_le hnd


theorem bucketSource_append (ops : OpMethods) (P Q : List commandMap)
    (kv : String × List String) (h : bucketSource ops P kv) : bucketSource ops (P ++ Q) kv := by
  rcases h with h | ⟨es, hes, hall, hl⟩
  · exact Or.inl h
  · exact Or.inr ⟨es, hes.trans (List.prefix_append P Q).isInfix, hall, hl⟩

/-- The pending store `list[lastDesc] = l` keeps the sources of the buckets. -/
theorem inOrder_store (ops : OpMethods) (P : List commandMap) (st : HelpState)
    (h : HelpState.InOrder ops P st) :
    ∀ kv ∈ (if st.l.length > 0 then HelpMap.set st.list st.lastDesc st.l else st.list),
      bucketSource ops P kv := by
  obtain ⟨h1, es, hes, hall, hl⟩ := h
  intro kv hkv
  by_cases hpos : st.l.length > 0
  · rw [if_pos hpos] at hkv
    rcases HelpMap.mem_set _ _ _ _ hkv with h | h
    · exact h1 kv h
    · subst h
      exact Or.inr ⟨es, hes.isInfix, hall, hl⟩
  · rw [if_neg hpos] at hkv
    exact h1 kv hkv

/-- A user-facing entry keeps the order invariant, for the entries extended by it. -/
theorem helpStep_inOrder (ops : OpMethods) (P : List commandMap) (st : HelpState)
    (c : commandMap) (hc : ops.IsInternal c.operation = false)
    (h : HelpState.InOrder ops P st) : HelpState.InOrder ops (P ++ [c]) (helpStep ops st c) := by
  have hstore := inOrder_store ops P st h
  obtain ⟨h1, es, hes, hall, hl⟩ := h
  rw [helpStep_user ops st c hc]
  cases ho : overrides c.operation with
  | some t =>
    refine ⟨?_, [], List.nil_suffix, fun _ hx => absurd hx (by simp), rfl⟩
    intro kv hkv
    rcases HelpMap.mem_set _ _ _ _ hkv with hm | hm
    · by_cases he : st.lastDesc = ops.Describe c.operation c.opts
      · simp only [ne_eq, he, not_true_eq_false, if_false] at hm
        exact bucketSource_append ops P [c] kv (h1 kv hm)
      · simp only [ne_eq, he, not_false_eq_true, if_true] at hm
        exact bucketSource_append ops P [c] kv (hstore kv hm)
    · subst hm
      exact Or.inl ⟨c.operation, t, ho, rfl⟩
  | none =>
    by_cases he : st.lastDesc = ops.Describe c.operation c.opts
    · simp only [ne_eq, he, not_true_eq_false, if_false]
      refine ⟨fun kv hkv => bucketSource_append ops P [c] kv (h1 kv hkv), es ++ [c], ?_, ?_, ?_⟩
      · obtain ⟨pre, hpre⟩ := hes
        exact ⟨pre, by rw [← hpre, List.append_assoc]⟩
      · intro x hx
        rcases List.mem_append.mp hx with hx | hx
        · exact ⟨(hall x hx).1, (hall x hx).2.trans he⟩
        · rw [List.mem_singleton] at hx
          subst hx
          exact ⟨ho, rfl⟩
      · rw [hl, List.map_append]
        rfl
    · simp only [ne_eq, he, not_false_eq_true, if_true]
      refine ⟨fun kv hkv => bucketSource_append ops P [c] kv (hstore kv hkv), [c],
        List.suffix_append P [c], ?_, rfl⟩
      intro x hx
      rw [List.mem_singleton] at hx
      subst hx
      exact ⟨ho, rfl⟩

theorem foldl_helpStep_inOrder (ops : OpMethods) (rest : List commandMap) :
    ∀ (P : List commandMap) (st : HelpState),
    (∀ c ∈ rest, ops.IsInternal c.operation = false) → HelpState.InOrder ops P st →
    HelpState.InOrder ops (P ++ rest) (rest.foldl (helpStep ops) st) := by
  induction rest with
  | nil => intro P st _ h; simpa using h
  | cons c rest ih =>
    intro P st hall h
    have := ih (P ++ [c]) _ (fun c' hc' => hall c' (List.mem_cons_of_mem _ hc'))
      (helpStep_inOrder ops P st c (hall c (List.mem_cons_self _ _)) h)
    simpa [List.append_assoc] using this

/-- Every bucket of the map has its source in the user-facing entries of the table. -/
theorem helpMap_sources (ops : OpMethods) (cmds : List commandMap) :
    ∀ kv ∈ helpMap ops cmds,
      bucketSource ops (cmds.filter (fun c => !ops.IsInternal c.operation)) kv := by
  have h0 : HelpState.InOrder ops [] { list := [], lastDesc := "", l := [] } :=
    ⟨fun kv hkv => absurd hkv (by simp), [], List.nil_suffix,
      fun _ hx => absurd hx (by simp), rfl⟩
  have h1 := foldl_helpStep_inOrder ops (cmds.filter (fun c => !ops.IsInternal c.operation)) []
    _ (fun c hc => by simpa using (List.mem_filter.mp hc).2) h0
  rw [List.nil_append, ← foldl_helpStep_filter] at h1
  unfold helpMap
  exact inOrder_store ops _ _ h1

theorem HelpMap.get_mem_self (m : HelpMap) (k : String) (hk : k ∈ m.map Prod.fst) :
    (k, HelpMap.get m k) ∈ m := by
  induction m with
  | nil => simp at hk
  | cons kv rest ih =>
    obtain ⟨k', v'⟩ := kv
    by_cases h : k' = k
    · subst h
      simp [HelpMap.get]
    · have hk' : k ∈ rest.map Prod.fst := by
        rcases List.mem_cons.mp hk with h' | h'
        · exact absurd h'.symm h
        · exact h'
      simp only [HelpMap.get, h, if_false]
      exact List.mem_cons_of_mem _ (ih hk')

/-- C13: the text of `GetCommandList` is the sequence of its buckets, each a heading line with
two spaces of indent followed by its usage lines with eight; the headings are in strictly
ascending lexicographic order; and the lines under a heading are either the fixed text of an
override or the usage lines of entries of the table with this description, in table order. -/
theorem GetCommandList_sorted_in_table_order (ops : OpMethods) (cmds : List commandMap) :
    (GetCommandListOf ops cmds).data = (helpBuckets ops cmds).flatMap (fun b =>
      "  ".data ++ b.1.data ++ '\n' ::
        b.2.flatMap (fun o => "        ".data ++ o.data ++ ['\n'])) ∧
    ((helpBuckets ops cmds).map (fun b => b.1.data)).Pairwise
      (fun a b => List.Lex (fun x y : Char => x < y) a b) ∧
    ∀ b ∈ helpBuckets ops cmds,
      (∃ o t, overrides o = some t ∧ b.2 = [t]) ∨
      ∃ es : List commandMap, es.Sublist cmds ∧
        (∀ c ∈ es, ops.IsInternal c.operation = false ∧ overrides c.operation = none ∧
          ops.Describe c.operation c.opts = b.1) ∧
        b.2 = es.map (usageLine ops) := by
  refine ⟨renderBuckets_data _, helpBuckets_keys_sorted ops cmds, ?_⟩
  intro b hb
  unfold helpBuckets at hb
  simp only [List.mem_map] at hb
  obtain ⟨k, hk, rfl⟩ := hb
  have hk' : k ∈ (helpMap ops cmds).map Prod.fst :=
    (List.perm_insertionSort _ _).mem_iff.mp hk
  rcases helpMap_sources ops cmds _ (HelpMap.get_mem_self _ k hk') with h | ⟨es, hes, hall, hl⟩
  · exact Or.inl h
  · refine Or.inr ⟨es, hes.sublist.trans (List.filter_sublist _), fun c hc => ⟨?_, hall c hc⟩, hl⟩
    have := (List.mem_filter.mp (hes.subset hc)).2
    simpa using this


/-! ### The collapse of `[-rr] [-ia]` in the help text -/

/-- C9, as the code has it, for the command table. The text of `GetCommandList` does not contain
`[-rr] [-ia]` when, for the user-facing entries, no usage line has `-rr`, `-ia` twice in a row
among the accepted options, the options accepted by the bucket listing (the only non-override
entry without required shapes) do not end with `-rr`, `-ia`, and no description contains the
text. Whatever the operation methods: the text is the sequence of the buckets; every usage line
in it is the fixed text of an override or the usage line of a user-facing table entry; the usage
line of an entry is its keyword followed by its tokens after the collapse; and when the accepted
options are `a`, `-rr`, `-ia`, `b` with `-rr` neither in `a` nor in `b` and a further token
after the pair, the pair shows as `[-rr|-ia]` between the flags of `a` and what follows. -/
theorem GetCommandList_no_pair (ops : OpMethods)
    (hfour : ∀ c ∈ commands, ops.IsInternal c.operation = false → overrides c.operation = none →
      ¬ [RR, IA, RR, IA] <:+: ops.GetAcceptedOpts c.operation)
    (hend : ops.IsInternal .ListBuckets = false →
      ¬ [RR, IA] <:+ ops.GetAcceptedOpts .ListBuckets)
    (hdesc : ∀ c ∈ commands, ops.IsInternal c.operation = false →
      ¬ "[-rr] [-ia]".data <:+: (ops.Describe c.operation c.opts).data) :
    ¬ "[-rr] [-ia]".data <:+: (GetCommandList ops).data ∧
    (GetCommandList ops).data = (helpBuckets ops commands).flatMap bucketText ∧
    (∀ b ∈ helpBuckets ops commands, ∀ line ∈ b.2,
      (∃ o, overrides o = some line) ∨
      ∃ c ∈ commands, ops.IsInternal c.operation = false ∧ overrides c.operation = none ∧
        line = usageLine ops c) ∧
    (∀ c ∈ commands,
      (usageLine ops c).data = c.keyword.data ++ spJoin (collapseTok (lineTokens ops c))) ∧
    (∀ c ∈ commands, ∀ a b : OptionList, ops.GetAcceptedOpts c.operation = a ++ RR :: IA :: b →
      RR ∉ a → RR ∉ b → (b ≠ [] ∨ c.params ≠ []) →
      (usageLine ops c).data = c.keyword.data ++ spJoin (a.map optTok) ++ " [-rr|-ia]".data ++
        spJoin (b.map optTok ++ c.params.map (fun p => (ParamType.String p).data))) := by
  have heq : helpBuckets ops (commands.filter (fun c => !ops.IsInternal c.operation)) =
      helpBuckets ops commands := by
    unfold helpBuckets
    rw [← helpMap_filter]
  have huf : ∀ c ∈ commands.filter (fun c => !ops.IsInternal c.operation),
      c ∈ commands ∧ ops.IsInternal c.operation = false := by
    intro c hc
    obtain ⟨h1, h2⟩ := List.mem_filter.mp hc
    exact ⟨h1, by simpa using h2⟩
  have hb := helpBuckets_lines ops (commands.filter (fun c => !ops.IsInternal c.operation))
    (fun s => ¬ "[-rr] [-ia]".data <:+: s.data) (fun s => ¬ "[-rr] [-ia]".data <:+: s.data)
    (fun c hc => hdesc c (huf c hc).1 (huf c hc).2)
    (fun c hc ho => usageLine_no_pair ops c (keyword_good c (huf c hc).1)
      (hfour c (huf c hc).1 (huf c hc).2 ho)
      (fun hp => by
        have hop := params_nil_of_commands c (huf c hc).1 ho hp
        rw [hop]
        exact hend (hop ▸ (huf c hc).2)))
    overrides_no_pair
  rw [heq] at hb
  have hsrc := helpBuckets_lines ops (commands.filter (fun c => !ops.IsInternal c.operation))
    (fun _ => True)
    (fun line => (∃ o, overrides o = some line) ∨
      ∃ c ∈ commands, ops.IsInternal c.operation = false ∧ overrides c.operation = none ∧
        line = usageLine ops c)
    (fun _ _ => trivial)
    (fun c hc ho => Or.inr ⟨c, (huf c hc).1, (huf c hc).2, ho, rfl⟩)
    (fun o s h => Or.inl ⟨o, h⟩)
  rw [heq] at hsrc
  refine ⟨?_, renderBuckets_data _, fun b hbm => (hsrc b hbm).2,
    fun c hc => usageLine_tokens ops c (keyword_good c hc).1,
    fun c hc a b hao ha hb' hnext =>
      usageLine_first_pair ops c a b (keyword_good c hc).1 hao ha hb' hnext⟩
  intro hin
  have htext : (GetCommandList ops).data = ((helpBuckets ops commands).flatMap
      (fun b => ("  ".data ++ b.1.data) :: b.2.map (fun o => "        ".data ++ o.data))).flatMap
        (fun l => l ++ ['\n']) := by
    unfold GetCommandList GetCommandListOf
    rw [renderBuckets_data, List.flatMap_assoc]
    congr 1
    funext b
    exact bucketText_lines b
  rw [htext] at hin
  obtain ⟨l, hl, hP⟩ := infix_in_some_line _ (by decide) (by decide) _ hin
  obtain ⟨b, hbm, hlb⟩ := List.mem_flatMap.mp hl
  rcases List.mem_cons.mp hlb with h | h
  · subst h
    exact (hb b hbm).1 (infix_strip_space _ _ (infix_strip_space _ _ hP))
  · obtain ⟨o, ho, rfl⟩ := List.mem_map.mp h
    refine (hb b hbm).2 o ho ?_
    exact infix_strip_space _ _ (infix_strip_space _ _ (infix_strip_space _ _
      (infix_strip_space _ _ (infix_strip_space _ _ (infix_strip_space _ _
      (infix_strip_space _ _ (infix_strip_space _ _ hP)))))))

/-- Instance of C9: with the sample operation methods the help text has no `[-rr] [-ia]`, and
the upload line shows the pair as `[-rr|-ia]` between `[-n]` and the labels. -/
theorem GetCommandList_no_pair_witness :
    ¬ "[-rr] [-ia]".data <:+: (GetCommandList sampleOps).data ∧
    (usageLine sampleOps ⟨"cp", .Upload, [FileObj, S3ObjOrDir], []⟩).data =
      "cp".data ++ spJoin ([IfNotExists].map optTok) ++ " [-rr|-ia]".data ++
        spJoin (([] : OptionList).map optTok ++
          [FileObj, S3ObjOrDir].map (fun p => (ParamType.String p).data)) ∧
    usageLine sampleOps ⟨"cp", .Upload, [FileObj, S3ObjOrDir], []⟩ =
      "cp [-n] [-rr|-ia] filename s3://bucket[/object[/]]" := by
  have h := GetCommandList_no_pair sampleOps (by decide) (by decide) (by decide)
  exact ⟨h.1, h.2.2.2.2 ⟨"cp", .Upload, [FileObj, S3ObjOrDir], []⟩ (by decide) [IfNotExists] []
    rfl (by decide) (by decide) (Or.inr (by decide)), by decide⟩


end S5cmd
